import Mathlib

/-
Verification of GopherKV, a persistent in-memory key-value store.

The repository contains two parallel implementations of the storage core:

* Variant A: storage.ConcurrentMap (sharded map with per-shard byte counters,
  millisecond timestamps), core.Service (first variant, with its own global
  memory counter and the TTLManager min-heap expirer), storage.AOFPersister
  (line-by-line replay with truncation) and storage.RDBManager.

* Variant B: storage.Engine (sharded map with a single atomic memory counter,
  second-resolution timestamps, its own ttlHeap), core.Service (second
  variant), storage.AOF (parseAOF / OpenAndReplay) and storage.RDB, wired
  together by cmd/kvd/main.go.

This file gives a shallow embedding of both variants.  Go maps are modelled
as association lists whose keys are unique (Go map iteration order is
unspecified; the list order is one admissible order, and all map-level
statements are made through lookups).  Go byte slices are lists of bytes,
int64 arithmetic is modelled with Int (all quantities involved stay far from
the 64-bit boundaries), and every call to time.Now() inside a single
operation is modelled by one explicit time parameter.  The min-heaps backing
TTL expiration are modelled as lists kept sorted by expiration time, so that
popping the head is popping a minimal element, which is the only contract of
container/heap that the code relies on.
-/

set_option autoImplicit false

namespace GopherKV

/-- Model of a Go byte slice: a list of byte values. -/
abbrev Bytes := List Nat

/-- Length in bytes of a Go string, len([]byte(s)). -/
def byteLen (s : String) : Nat := s.utf8ByteSize

/-- Entry stored by both map implementations: a value and an absolute
expiration timestamp (0 = never expires).  Variant A keeps the timestamp in
Unix milliseconds, variant B in Unix seconds. -/
structure Entry where
  value : Bytes
  expiresAt : Int
deriving Repr, DecidableEq

/-- Record used by persistence (storage.PersistRecord and rdbEntry). -/
structure PersistRecord where
  key : String
  value : Bytes
  expiresAt : Int
deriving Repr, DecidableEq

/-- Error conditions surfaced by the two service layers.  Variant A uses Go
sentinel errors (ErrKeyNotFound, ...), variant B uses protocol.APIError
codes; both sets are folded into one type here. -/
inductive KvErr where
  | keyNotFound
  | keyTooLong
  | valueTooLarge
  | memoryFull
  | invalidRequest
  | internalErr
  | storageClosed
deriving Repr, DecidableEq

/-! Association-list model of a Go map[string]Entry.  Keys are unique in any
list produced by the operations below starting from a well-formed state. -/

/-- Lookup in a Go map: m[key]. -/
def listLookup {α : Type} : List (String × α) → String → Option α
  | [], _ => none
  | (k, v) :: rest, key => if k = key then some v else listLookup rest key

/-- Insertion into a Go map: m[key] = v (replace if present, add if absent). -/
def listInsert {α : Type} : List (String × α) → String → α → List (String × α)
  | [], key, v => [(key, v)]
  | (k, w) :: rest, key, v =>
      if k = key then (key, v) :: rest else (k, w) :: listInsert rest key v

/-- Deletion from a Go map: delete(m, key). -/
def listErase {α : Type} : List (String × α) → String → List (String × α)
  | [], _ => []
  | (k, w) :: rest, key => if k = key then rest else (k, w) :: listErase rest key

/-- Keys of the association list are pairwise distinct (Go map invariant). -/
def keysNodup {α : Type} (l : List (String × α)) : Prop :=
  (l.map Prod.fst).Nodup

instance {α : Type} (l : List (String × α)) : Decidable (keysNodup l) := by
  unfold keysNodup
  infer_instance

/-! Model of Go's encoding/base64 StdEncoding decoder, as used by the AOF
replay paths.  The decoder ignores carriage returns and newlines, requires
the remaining length to be a multiple of four, accepts padding only at the
end, and does not reject non-canonical trailing bits (as Go's decoder does
not). -/

/-- Value of one character of the standard base64 alphabet. -/
def b64CharVal (c : Char) : Option Nat :=
  if 'A' ≤ c ∧ c ≤ 'Z' then some (c.toNat - 'A'.toNat)
  else if 'a' ≤ c ∧ c ≤ 'z' then some (c.toNat - 'a'.toNat + 26)
  else if '0' ≤ c ∧ c ≤ '9' then some (c.toNat - '0'.toNat + 52)
  else if c = '+' then some 62
  else if c = '/' then some 63
  else none

/-- Decode a stream of base64 characters, four at a time.  Returns none on
any malformed input (invalid character, bad padding, wrong length). -/
def b64DecodeGroups : List Char → Option Bytes
  | [] => some []
  | c1 :: c2 :: c3 :: c4 :: rest =>
      match b64CharVal c1, b64CharVal c2 with
      | some v1, some v2 =>
          if c3 = '=' then
            -- "xx==": one output byte; must end the input
            if c4 = '=' ∧ rest = [] then some [(v1 * 4 + v2 / 16) % 256]
            else none
          else
            match b64CharVal c3 with
            | some v3 =>
                if c4 = '=' then
                  -- "xxx=": two output bytes; must end the input
                  if rest = [] then
                    some [(v1 * 4 + v2 / 16) % 256,
                          (v2 % 16) * 16 + v3 / 4]
                  else none
                else
                  match b64CharVal c4 with
                  | some v4 =>
                      match b64DecodeGroups rest with
                      | some tail =>
                          some (((v1 * 4 + v2 / 16) % 256) ::
                                ((v2 % 16) * 16 + v3 / 4) ::
                                (((v3 % 4) * 64 + v4) :: tail))
                      | none => none
                  | none => none
            | none => none
      | _, _ => none
  | _ => none

/-- Model of base64.StdEncoding.DecodeString: strip \r and \n, then decode
in groups of four characters. -/
def b64Decode (s : String) : Option Bytes :=
  b64DecodeGroups (s.data.filter (fun c => c ≠ '\r' ∧ c ≠ '\n'))

/-! Model of Go's strconv.ParseInt(s, 10, 64). -/

/-- Parse an unsigned run of decimal digits; none if empty or non-digit. -/
def parseDigits : List Char → Option Nat
  | [] => none
  | l => parseDigitsGo l 0
where
  parseDigitsGo : List Char → Nat → Option Nat
    | [], acc => some acc
    | c :: rest, acc =>
        if c.isDigit then parseDigitsGo rest (acc * 10 + (c.toNat - '0'.toNat))
        else none

/-- Model of strconv.ParseInt(s, 10, 64): optional sign, nonempty digit run,
64-bit signed range check. -/
def goParseInt (s : String) : Option Int :=
  let core : List Char → Bool → Option Int := fun digits neg =>
    match parseDigits digits with
    | none => none
    | some n =>
        let v : Int := if neg then -(Int.ofNat n) else Int.ofNat n
        if -(2 ^ 63) ≤ v ∧ v < 2 ^ 63 then some v else none
  match s.data with
  | [] => none
  | '-' :: rest => core rest true
  | '+' :: rest => core rest false
  | l => core l false

/-! Line handling shared by the replay paths. -/

/-- Split file content into the lines returned by bufio ReadString('\n'):
every line keeps its terminating '\n'; a final unterminated chunk, when
present, is returned as the last element. -/
def termLinesGo : List Char → List Char → List String
  | [], acc => if acc = [] then [] else [String.mk acc.reverse]
  | c :: rest, acc =>
      if c = '\n' then String.mk (c :: acc).reverse :: termLinesGo rest []
      else termLinesGo rest (c :: acc)

/-- All lines of the file, including a final unterminated chunk. -/
def linesAll (s : String) : List String := termLinesGo s.data []

/-- Only the '\n'-terminated lines of the file (parseAOF stops at the EOF
error that bufio reports together with an unterminated final chunk, so such
a chunk is never processed there). -/
def linesTerminated (s : String) : List String :=
  (linesAll s).filter (fun l => l.data.getLast? = some '\n')

/-- Whitespace set trimmed by strings.TrimSpace (ASCII part; the store's
own appenders never produce the non-ASCII Unicode spaces). -/
def isGoSpace (c : Char) : Bool :=
  c = ' ' ∨ c = '\t' ∨ c = '\n' ∨ c = Char.ofNat 11 ∨ c = Char.ofNat 12 ∨ c = '\r'

/-- Model of strings.TrimSpace. -/
def goTrimSpace (s : String) : String :=
  String.mk (((s.data.dropWhile isGoSpace).reverse.dropWhile isGoSpace).reverse)

/-- Model of strings.TrimRight(line, "\r\n"). -/
def trimRightCRLF (s : String) : String :=
  String.mk ((s.data.reverse.dropWhile (fun c => c = '\r' ∨ c = '\n')).reverse)

/-- Splitting on the tab character, accumulator-style. -/
def splitTabGo : List Char → List Char → List String
  | [], acc => [String.mk acc.reverse]
  | c :: rest, acc =>
      if c = '\t' then String.mk acc.reverse :: splitTabGo rest []
      else splitTabGo rest (c :: acc)

/-- Model of strings.Split(s, "\t"): the tab-separated fields, in order;
the empty string yields one empty field, like the Go function. -/
def splitTab (s : String) : List String := splitTabGo s.data []

/-- Model of f.Truncate(n): keep the first n bytes of the content.  The
offsets used by both replay paths always fall on line boundaries. -/
def utf8Take (s : String) (n : Int) : String :=
  String.mk (utf8TakeGo s.data n)
where
  utf8TakeGo : List Char → Int → List Char
    | [], _ => []
    | c :: rest, k =>
        if (c.utf8Size : Int) ≤ k then c :: utf8TakeGo rest (k - (c.utf8Size : Int))
        else []

/-! Variant A: storage.ConcurrentMap (part_008).  A shard owns an item map
and a byte counter; the map dispatches by the low 32 bits of the SHA-256 of
the key masked with shardMask.  The hash itself is opaque to every property
claimed about this code, so it is carried as an abstract function inside the
structure. -/

/-- One shard: items plus the shard-local byte counter shard.mem. -/
structure Shard where
  items : List (String × Entry)
  mem : Int

/-- The sharded concurrent map.  hashFn models the low 32 bits of the
SHA-256 digest of the key (crypto/sha256 in getShard). -/
structure CMap where
  shards : List Shard
  shardMask : Nat
  hashFn : String → Nat

/-- Shard count chosen by NewConcurrentMap: with ac = 1 shifted left by
ceil(log2 shardCount) (Nat.clog 2 models math.Ceil of math.Log2 exactly on
the integer inputs at hand), the code keeps ac unless ac > shardCount, in
which case it falls back to shardCount itself. -/
def newConcurrentMapShardCount (shardCount : Nat) : Nat :=
  let ac := 2 ^ Nat.clog 2 shardCount
  if ac > shardCount then shardCount else ac

/-- NewConcurrentMap: allocate the shards and set shardMask = count - 1. -/
def newConcurrentMap (shardCount : Nat) (hashFn : String → Nat) : CMap :=
  let n := newConcurrentMapShardCount shardCount
  ⟨List.replicate n ⟨[], 0⟩, n - 1, hashFn⟩

/-- Index of the shard getShard picks: hash masked with shardMask. -/
def cmShardIdx (cm : CMap) (key : String) : Nat :=
  cm.hashFn key &&& cm.shardMask

/-- The shard holding the key (out-of-range indices, which never occur for
well-formed maps, read as an empty shard). -/
def cmShard (cm : CMap) (key : String) : Shard :=
  cm.shards.getD (cmShardIdx cm key) ⟨[], 0⟩

/-- Well-formedness of a CMap: the mask never sends getShard out of the
allocated shard slice (claim C10 shows this holds for every map built by
NewConcurrentMap). -/
def cmWF (cm : CMap) : Prop :=
  cm.shardMask < cm.shards.length

/-- ConcurrentMap.Set: compute the signed byte delta, store the new entry,
adjust the shard byte counter by the delta and return it. -/
def cmSet (cm : CMap) (key : String) (value : Bytes) (expiresAt : Int) :
    CMap × Int :=
  let idx := cmShardIdx cm key
  let sh := cm.shards.getD idx ⟨[], 0⟩
  let memDelta : Int :=
    (match listLookup sh.items key with
     | some old => -(Int.ofNat (byteLen key + old.value.length))
     | none => 0) + Int.ofNat (byteLen key + value.length)
  let sh2 : Shard := ⟨listInsert sh.items key ⟨value, expiresAt⟩, sh.mem + memDelta⟩
  (⟨cm.shards.set idx sh2, cm.shardMask, cm.hashFn⟩, memDelta)

/-- ConcurrentMap.Get at time nowMs (UnixMilli): an entry with
expiresAt > 0 and nowMs > expiresAt reads as absent; no mutation. -/
def cmGet (cm : CMap) (key : String) (nowMs : Int) : Option (Bytes × Int) :=
  match listLookup (cmShard cm key).items key with
  | none => none
  | some e =>
      if e.expiresAt > 0 ∧ nowMs > e.expiresAt then none
      else some (e.value, e.expiresAt)

/-- ConcurrentMap.Delete: remove the entry if present, adjust the shard
byte counter by the returned delta. -/
def cmDelete (cm : CMap) (key : String) : CMap × Int :=
  let idx := cmShardIdx cm key
  let sh := cm.shards.getD idx ⟨[], 0⟩
  match listLookup sh.items key with
  | none => (cm, 0)
  | some old =>
      let memDelta : Int := -(Int.ofNat (byteLen key + old.value.length))
      let sh2 : Shard := ⟨listErase sh.items key, sh.mem + memDelta⟩
      (⟨cm.shards.set idx sh2, cm.shardMask, cm.hashFn⟩, memDelta)

/-- ConcurrentMap.Exists: same lazy-expiration test as Get. -/
def cmExists (cm : CMap) (key : String) (nowMs : Int) : Bool :=
  match listLookup (cmShard cm key).items key with
  | none => false
  | some e => !(e.expiresAt > 0 ∧ nowMs > e.expiresAt : Bool)

/-- ConcurrentMap.MemUsage: sum of the per-shard byte counters. -/
def cmMemUsage (cm : CMap) : Int :=
  (cm.shards.map Shard.mem).sum

/-- ConcurrentMap.Keys: total number of stored entries. -/
def cmKeys (cm : CMap) : Nat :=
  (cm.shards.map (fun sh => sh.items.length)).sum

/-! Variant A: core.Service (first variant in service.go) and the
core.TTLManager expirer (part_011).  The service keeps its own global
memory counter next to the per-shard counters, and drives the TTL manager
whose onExpire callback (NewService) is storage.Delete with the returned
delta discarded.  The request/hit/miss statistics counters play no role in
any claimed property and are omitted from the state. -/

/-- Configuration slice used by the first service variant. -/
structure SvcConfig where
  maxKeySize : Nat
  maxValueSize : Nat
  maxMemory : Int

/-- State of the first core.Service variant: the sharded map, the global
memory counter, and the TTLManager heap (a list kept sorted by expiresAt,
modelling the container/heap min-heap). -/
structure ServiceA where
  cfg : SvcConfig
  cm : CMap
  memUsage : Int
  ttlHeap : List (String × Int)

/-- Service.validateKey: empty or over-long keys are rejected. -/
def svcValidateKey (cfg : SvcConfig) (key : String) : Option KvErr :=
  if byteLen key = 0 then some .keyTooLong
  else if byteLen key > cfg.maxKeySize then some .keyTooLong
  else none

/-- Service.validateValue. -/
def svcValidateValue (cfg : SvcConfig) (value : Bytes) : Option KvErr :=
  if value.length > cfg.maxValueSize then some .valueTooLarge else none

/-- TTLManager.Add: push a heap item (model: ordered insert, keeping the
list sorted by expiration so that the head is a minimal element). -/
def ttlHeapPush : List (String × Int) → String × Int → List (String × Int)
  | [], it => [it]
  | hd :: rest, it =>
      if it.2 < hd.2 then it :: hd :: rest else hd :: ttlHeapPush rest it

/-- Service.Set at time nowMs: validate, compute expiresAt, test the
conservative memory estimate len(key)+len(value) against maxMemory before
mutating, then apply ConcurrentMap.Set, add its delta to the global
counter, and register the TTL when ttl > 0 (ttlMs is the TTL duration in
milliseconds; 0 means no expiration). -/
def svcSet (s : ServiceA) (key : String) (value : Bytes) (ttlMs : Int)
    (nowMs : Int) : ServiceA × Option KvErr :=
  match svcValidateKey s.cfg key with
  | some e => (s, some e)
  | none =>
  match svcValidateValue s.cfg value with
  | some e => (s, some e)
  | none =>
    let expiresAt : Int := if ttlMs > 0 then nowMs + ttlMs else 0
    let estimatedDelta : Int := Int.ofNat (byteLen key + value.length)
    if s.memUsage + estimatedDelta > s.cfg.maxMemory then (s, some .memoryFull)
    else
      let res := cmSet s.cm key value expiresAt
      let s2 : ServiceA :=
        { s with
          cm := res.1
          memUsage := s.memUsage + res.2
          ttlHeap :=
            if ttlMs > 0 then ttlHeapPush s.ttlHeap (key, expiresAt)
            else s.ttlHeap }
      (s2, none)

/-- Service.Delete: validate, delete from the map, add the delta to the
global counter. -/
def svcDelete (s : ServiceA) (key : String) : ServiceA × Option KvErr :=
  match svcValidateKey s.cfg key with
  | some e => (s, some e)
  | none =>
    let res := cmDelete s.cm key
    ({ s with cm := res.1, memUsage := s.memUsage + res.2 }, none)

/-- One pass of TTLManager.process at time nowMs, combined with the
onExpire callback installed by NewService: when the heap top is due it is
popped and the key is deleted from the map unconditionally; the memory
delta returned by storage.Delete is discarded, and the global counter is
left untouched. -/
def svcExpireStep (s : ServiceA) (nowMs : Int) : ServiceA :=
  match s.ttlHeap with
  | [] => s
  | (key, expiresAt) :: rest =>
      if expiresAt > nowMs then s
      else
        { s with cm := (cmDelete s.cm key).1, ttlHeap := rest }

/-- Service.TTL (first variant) at time nowMs, in integer seconds: absent
(or lazily expired) keys fail with KeyNotFound; expiresAt = 0 reports -1;
otherwise the remaining time is rounded up to whole seconds with math.Ceil
(the Go function scales this count by time.Second on return). -/
def svcTTL (s : ServiceA) (key : String) (nowMs : Int) : Except KvErr Int :=
  match svcValidateKey s.cfg key with
  | some e => .error e
  | none =>
  match cmGet s.cm key nowMs with
  | none => .error .keyNotFound
  | some (_, expiresAt) =>
      if expiresAt = 0 then .ok (-1)
      else
        let remainingMs := expiresAt - nowMs
        if remainingMs < 0 then .ok (-2)
        else .ok (-((-remainingMs).ediv 1000))

/-! Variant A: storage.AOFPersister.Replay (types.go part) working directly
on the ConcurrentMap, one line at a time. -/

/-- AOFPersister.applyLine on the trimmed line: parse and apply a single
record to the map; none signals a parse failure.  A SET whose expiration
has already passed at replay time is skipped (successfully). -/
def applyLineA (cm : CMap) (nowMs : Int) (line : String) : Option CMap :=
  if line = "" then some cm
  else
    let parts := splitTab line
    if parts.length < 2 then none
    else
      match parts.head? with
      | some "SET" =>
          if parts.length ≠ 4 then none
          else
            match b64Decode (parts.getD 2 "") with
            | none => none
            | some value =>
                match goParseInt (parts.getD 3 "") with
                | none => none
                | some expiresAt =>
                    if expiresAt > 0 ∧ expiresAt ≤ nowMs then some cm
                    else some (cmSet cm (parts.getD 1 "") value expiresAt).1
      | some "DEL" =>
          if parts.length ≠ 2 then none
          else some (cmDelete cm (parts.getD 1 "")).1
      | _ => none

/-- Result of AOFPersister.Replay: the updated map, the number of lines
loaded, and the byte offset the file was truncated to (none when no parse
error was met and the file is left alone). -/
structure ReplayAResult where
  cm : CMap
  loaded : Nat
  truncatedTo : Option Int

/-- The replay loop: offset counts all consumed bytes, lastGood the end of
the last successfully applied line; the first parse failure truncates the
file to lastGood and stops. -/
def replayAGo (nowMs : Int) : List String → CMap → Int → Int → Nat →
    ReplayAResult
  | [], cm, _, _, loaded => ⟨cm, loaded, none⟩
  | l :: rest, cm, offset, lastGood, loaded =>
      if l = "" then replayAGo nowMs rest cm offset lastGood loaded
      else
        let offset2 := offset + Int.ofNat (byteLen l)
        match applyLineA cm nowMs (trimRightCRLF l) with
        | some cm2 => replayAGo nowMs rest cm2 offset2 offset2 (loaded + 1)
        | none => ⟨cm, loaded, some lastGood⟩

/-- AOFPersister.Replay on the file content (bufio delivers every line with
its terminator, plus a final unterminated chunk which Replay does process). -/
def replayA (cm : CMap) (content : String) (nowMs : Int) : ReplayAResult :=
  replayAGo nowMs (linesAll content) cm 0 0 0

/-- File content after AOFPersister.Replay. -/
def replayAContent (content : String) (r : ReplayAResult) : String :=
  match r.truncatedTo with
  | none => content
  | some off => utf8Take content off

/-! Variant B: storage.Engine (part_007).  Timestamps are Unix seconds;
entry sizes include a 32-byte overhead; the memory counter lives inside the
engine and the memory check compares the net delta.  utils.HashString
(FNV-1a, 64 bit) is carried as an abstract function: no claimed property
depends on its concrete values. -/

/-- The storage engine.  The closed flag models the atomic closed bool; the
ttlq list-sorted-by-expiresAt models the engine's own min-heap. -/
structure Engine where
  shards : List (List (String × Entry))
  shardMask : Nat
  shardCount : Nat
  maxKeySize : Nat
  maxValueSize : Nat
  maxMemory : Int
  memUsage : Int
  ttlq : List (String × Int)
  closed : Bool
  hashFn : String → Nat

/-- NewEngine: shard count defaults to 256 when not positive, the mask is
count-1 when the count is a power of two and 0 otherwise. -/
def newEngine (shardCount maxKeySize maxValueSize : Nat) (maxMemory : Int)
    (hashFn : String → Nat) : Engine :=
  let sc := if shardCount = 0 then 256 else shardCount
  { shards := List.replicate sc []
    shardMask := if sc &&& (sc - 1) = 0 then sc - 1 else 0
    shardCount := sc
    maxKeySize := maxKeySize
    maxValueSize := maxValueSize
    maxMemory := maxMemory
    memUsage := 0
    ttlq := []
    closed := false
    hashFn := hashFn }

/-- Engine.shardIndex: mask when the shard count is a power of two, modulo
otherwise. -/
def engineShardIdx (e : Engine) (key : String) : Nat :=
  if e.shardMask > 0 then e.hashFn key &&& e.shardMask
  else e.hashFn key % e.shardCount

/-- Items of the shard holding the key. -/
def engineShardItems (e : Engine) (key : String) : List (String × Entry) :=
  e.shards.getD (engineShardIdx e key) []

/-- Lookup through the shard structure (s.m[key] on shard(key)). -/
def engineLookup (e : Engine) (key : String) : Option Entry :=
  listLookup (engineShardItems e key) key

/-- estimateEntrySize: len(key) + len(value) + 32 bytes of overhead. -/
def estimateEntrySize (key : String) (value : Bytes) : Int :=
  Int.ofNat (byteLen key + value.length + 32)

/-- Engine.validate.  Lean strings are valid UTF-8 by construction, so the
utf8.ValidString arm of the key check never fires in the model. -/
def engineValidate (e : Engine) (key : String) (value : Bytes) : Option KvErr :=
  if key = "" then some .invalidRequest
  else if e.maxKeySize > 0 ∧ byteLen key > e.maxKeySize then some .keyTooLong
  else if e.maxValueSize > 0 ∧ value.length > e.maxValueSize then some .valueTooLarge
  else none

/-- isExpired at second resolution: expiresAt > 0 and expiresAt <= now. -/
def isExpiredB (expiresAt nowSec : Int) : Prop :=
  expiresAt > 0 ∧ expiresAt ≤ nowSec

instance (expiresAt nowSec : Int) : Decidable (isExpiredB expiresAt nowSec) := by
  unfold isExpiredB; infer_instance

/-- Engine.SetWithExpiresAt: closed check, validation, net-delta memory
check (only rejecting when the delta is positive), then store and push the
TTL heap item when expiresAt > 0. -/
def engineSetWithExpiresAt (e : Engine) (key : String) (value : Bytes)
    (expiresAt : Int) : Except KvErr Engine :=
  if e.closed then .error .storageClosed
  else
  match engineValidate e key value with
  | some err => .error err
  | none =>
    let idx := engineShardIdx e key
    let items := e.shards.getD idx []
    let newSize := estimateEntrySize key value
    let delta := newSize -
      (match listLookup items key with
       | some old => estimateEntrySize key old.value
       | none => 0)
    if delta > 0 ∧ e.memUsage + delta > e.maxMemory then .error .memoryFull
    else
      .ok { e with
            shards := e.shards.set idx (listInsert items key ⟨value, expiresAt⟩)
            memUsage := e.memUsage + delta
            ttlq := if expiresAt > 0 then ttlHeapPush e.ttlq (key, expiresAt)
                    else e.ttlq }

/-- Engine.deleteIfExpired: the validated deletion.  Delete only when the
entry still exists, carries exactly the expected expiresAt, and that time
has passed; otherwise leave the engine untouched. -/
def engineDeleteIfExpired (e : Engine) (key : String) (expiresAt nowSec : Int) :
    Engine :=
  if expiresAt = 0 then e
  else
    let idx := engineShardIdx e key
    let items := e.shards.getD idx []
    match listLookup items key with
    | none => e
    | some ent =>
        if ent.expiresAt ≠ expiresAt ∨ ent.expiresAt = 0 ∨ ent.expiresAt > nowSec
        then e
        else
          { e with
            shards := e.shards.set idx (listErase items key)
            memUsage := e.memUsage - estimateEntrySize key ent.value }

/-- Engine.Get: a read that, on a lazily expired entry, immediately calls
deleteIfExpired — this read does mutate the engine. -/
def engineGet (e : Engine) (key : String) (nowSec : Int) :
    Option Bytes × Engine :=
  match engineLookup e key with
  | none => (none, e)
  | some ent =>
      if isExpiredB ent.expiresAt nowSec then
        (none, engineDeleteIfExpired e key ent.expiresAt nowSec)
      else (some ent.value, e)

/-- Engine.Delete: unconditional removal with memory adjustment. -/
def engineDelete (e : Engine) (key : String) : Engine :=
  let idx := engineShardIdx e key
  let items := e.shards.getD idx []
  match listLookup items key with
  | none => e
  | some old =>
      { e with
        shards := e.shards.set idx (listErase items key)
        memUsage := e.memUsage - estimateEntrySize key old.value }

/-- Engine.Exists is Get discarding the value. -/
def engineExists (e : Engine) (key : String) (nowSec : Int) : Bool × Engine :=
  let res := engineGet e key nowSec
  (res.1.isSome, res.2)

/-- Go integer T-division remainder (the % operator on int64). -/
def goMod (d m : Int) : Int := Int.tmod d m

/-- Go time.Duration.Round to a positive multiple m, half away from zero
(overflow saturation omitted: all quantities here are tiny). -/
def goRoundDur (d m : Int) : Int :=
  if d < 0 then
    let r := -(goMod d m)
    if r + r < m then d + r else d - m + r
  else
    let r := goMod d m
    if r + r < m then d - r else d + m - r

/-- Engine.TTL at time nowMs (the two time.Now() calls inside the function
are modelled at one instant: Unix() is the floor to seconds, time.Until
keeps sub-second precision).  The result is a duration in nanoseconds:
none for absent (or lazily expired, which also triggers deleteIfExpired),
-1 ns for no expiration, otherwise the remaining time rounded to the
nearest whole second and clamped at 0. -/
def engineTTL (e : Engine) (key : String) (nowMs : Int) :
    Option Int × Engine :=
  let nowSec := nowMs.ediv 1000
  match engineLookup e key with
  | none => (none, e)
  | some ent =>
      if isExpiredB ent.expiresAt nowSec then
        (none, engineDeleteIfExpired e key ent.expiresAt nowSec)
      else if ent.expiresAt = 0 then (some (-1), e)
      else
        let remainingNs := (ent.expiresAt * 1000 - nowMs) * 1000000
        let rounded := goRoundDur remainingNs 1000000000
        (some (if rounded < 0 then 0 else rounded), e)

/-- Service.TTL (second variant): map the engine result to the integer
second count returned to the transport (int64 of Duration.Seconds, exact
here because the duration is a whole number of seconds). -/
def svcBTTL (e : Engine) (key : String) (nowMs : Int) :
    Except KvErr Int × Engine :=
  let res := engineTTL e key nowMs
  match res.1 with
  | none => (.error .keyNotFound, res.2)
  | some t =>
      if t < 0 then (.ok (-1), res.2) else (.ok (t.tdiv 1000000000), res.2)

/-- Engine.Snapshot at time nowSec: iterate the shards, dropping entries
whose expiration has passed. -/
def engineSnapshot (e : Engine) (nowSec : Int) : List PersistRecord :=
  (e.shards.map (fun items =>
    items.filterMap (fun p =>
      if p.2.expiresAt > 0 ∧ p.2.expiresAt ≤ nowSec then none
      else some ⟨p.1, p.2.value, p.2.expiresAt⟩))).flatten

/-- Engine.Restore: apply the records through SetWithExpiresAt, skipping
the ones already expired, aborting on the first error. -/
def engineRestore (e : Engine) (records : List PersistRecord) (nowSec : Int) :
    Except KvErr Engine :=
  match records with
  | [] => .ok e
  | r :: rest =>
      if r.expiresAt > 0 ∧ r.expiresAt ≤ nowSec then engineRestore e rest nowSec
      else
        match engineSetWithExpiresAt e r.key r.value r.expiresAt with
        | .ok e2 => engineRestore e2 rest nowSec
        | .error err => .error err

/-- Engine.evictExpired: drain the heap of due entries, each through the
validated deleteIfExpired; stop at the first not-yet-due entry. -/
def evictExpiredGo (nowSec : Int) : List (String × Int) → Engine → Engine
  | [], e => e
  | (key, ea) :: rest, e =>
      if ea > nowSec then e
      else
        evictExpiredGo nowSec rest
          (engineDeleteIfExpired { e with ttlq := rest } key ea nowSec)

/-- Engine.evictExpired entry point. -/
def evictExpired (e : Engine) (nowSec : Int) : Engine :=
  evictExpiredGo nowSec e.ttlq e

/-! Variant B: storage.AOF replay (persistence.go) and the kvd startup
sequence (cmd/kvd/main.go). -/

/-- One line of parseAOF: trim, skip blank lines, otherwise parse a SET or
DEL into the accumulated map of records; none is a parse failure. -/
def parseAOFStep (kv : List (String × PersistRecord)) (rawLine : String) :
    Option (List (String × PersistRecord)) :=
  let line := goTrimSpace rawLine
  if line = "" then some kv
  else
    let parts := splitTab line
    match parts.head? with
    | some "SET" =>
        if parts.length ≠ 4 then none
        else
          match b64Decode (parts.getD 2 "") with
          | none => none
          | some value =>
              match goParseInt (parts.getD 3 "") with
              | none => none
              | some expiresAt =>
                  some (listInsert kv (parts.getD 1 "")
                          ⟨parts.getD 1 "", value, expiresAt⟩)
    | some "DEL" =>
        if parts.length ≠ 2 then none
        else some (listErase kv (parts.getD 1 ""))
    | _ => none

/-- The parseAOF loop: on a parse failure it returns the offset of the end
of the last successfully parsed line together with an empty record list —
the accumulated records are discarded (the nil return in the source). -/
def parseAOFGo : List String → List (String × PersistRecord) → Int →
    List PersistRecord × Int × Bool
  | [], kv, off => (kv.map Prod.snd, off, true)
  | l :: rest, kv, off =>
      match parseAOFStep kv l with
      | some kv2 => parseAOFGo rest kv2 (off + Int.ofNat (byteLen l))
      | none => ([], off, false)

/-- parseAOF on the file content (only fully terminated lines are
processed: the loop breaks on the EOF that accompanies a final
unterminated chunk). -/
def parseAOFModel (content : String) : List PersistRecord × Int × Bool :=
  parseAOFGo (linesTerminated content) [] 0

/-- AOF.OpenAndReplay followed by the restore callback (store.Restore):
parse, truncate the file at the reported offset when parsing failed, then
restore whatever records parseAOF returned. -/
def openAndReplayB (e : Engine) (content : String) (nowSec : Int) :
    Except KvErr (Engine × String) :=
  let (records, off, parseOk) := parseAOFModel content
  let content2 := if parseOk then content else utf8Take content off
  match engineRestore e records nowSec with
  | .ok e2 => .ok (e2, content2)
  | .error err => .error err

/-- Startup environment of cmd/kvd/main.go: which persistence mechanisms
are enabled, whether the log file already exists and with what content,
and what RDB.LoadLatest would deliver (none models a load error, which
main ignores). -/
structure StartupEnv where
  aofEnabled : Bool
  rdbEnabled : Bool
  aofFileExists : Bool
  aofContent : String
  rdbLatest : Option (List PersistRecord)

/-- Whether the startup sequence performs the snapshot restore: only when
AOF is disabled (aof == nil), RDB is enabled, and LoadLatest succeeded
with a nonempty record list. -/
def startupLoadsSnapshot (env : StartupEnv) : Bool :=
  env.rdbEnabled && !env.aofEnabled &&
    (match env.rdbLatest with
     | some rs => !rs.isEmpty
     | none => false)

/-- The startup sequence of main.go: when AOF is enabled the log is opened
with O_CREATE (an absent file reads as empty) and replayed; the snapshot
is consulted only when aof == nil, i.e. when AOF is disabled. -/
def startupB (env : StartupEnv) (e0 : Engine) (nowSec : Int) :
    Except KvErr Engine :=
  let afterAOF : Except KvErr Engine :=
    if env.aofEnabled then
      match openAndReplayB e0 (if env.aofFileExists then env.aofContent else "")
              nowSec with
      | .ok (e1, _) => .ok e1
      | .error err => .error err
    else .ok e0
  match afterAOF with
  | .error err => .error err
  | .ok e1 =>
      if startupLoadsSnapshot env then
        match env.rdbLatest with
        | some rs => engineRestore e1 rs nowSec
        | none => .ok e1
      else .ok e1

/-! Derived notions and concrete states used by the statements below. -/

/-- Apply a sequence of Service.Set calls (key, value, ttlMs, nowMs),
keeping the state of every call, successful or failed. -/
def svcSetMany (s : ServiceA) : List (String × Bytes × Int × Int) → ServiceA
  | [] => s
  | c :: rest => svcSetMany (svcSet s c.1 c.2.1 c.2.2.1 c.2.2.2).1 rest

/-- Shard indices of an engine never leave the allocated slice. -/
def engineIdxOk (e : Engine) : Prop :=
  e.shardCount = e.shards.length ∧ 0 < e.shards.length ∧
    (e.shardMask = 0 ∨ e.shardMask < e.shards.length)

/-- Well-formed engine: indices in range, per-shard key uniqueness, and
every stored key sits in the shard its hash selects. -/
def engineWF (e : Engine) : Prop :=
  engineIdxOk e ∧
    ∀ i : Fin e.shards.length,
      keysNodup (e.shards.get i) ∧
        ∀ p ∈ e.shards.get i, engineShardIdx e p.1 = i.val

/-- Total estimated size of everything stored in the engine. -/
def entriesEstSum (e : Engine) : Int :=
  ((e.shards.map (fun items =>
      (items.map (fun p => estimateEntrySize p.1 p.2.value)).sum)).sum)

/-- An empty store with the same configuration and hash function as e:
what a restart with a fresh NewEngine under the same Options yields. -/
def engineFresh (e : Engine) : Engine :=
  { e with
    shards := List.replicate e.shards.length []
    memUsage := 0
    ttlq := []
    closed := false }

/-- First record carrying the given key. -/
def recsLookup : List PersistRecord → String → Option PersistRecord
  | [], _ => none
  | r :: rest, key => if r.key = key then some r else recsLookup rest key

/-- Degenerate hash used by the concrete states below (every key in shard
0); which hash is used is irrelevant to each of the properties at stake. -/
def zeroHash : String → Nat := fun _ => 0

/-- The corrupted log content of scenario S4 in the specification. -/
def s4content : String := "SET\tk1\tdjE=\t0\nBROKEN\tline\nSET\tk2\tdjI=\t0\n"

/-- A fresh engine used by the replay evaluations. -/
def c1Engine0 : Engine := newEngine 16 256 1048576 268435456 zeroHash

/-- A fresh variant-A map used by the replay evaluations: the 16 shards
and mask 15 that NewConcurrentMap(16) builds, written out so that the
kernel can evaluate it (Nat.clog is not definitionally reducible). -/
def c1CMap0 : CMap := ⟨List.replicate 16 ⟨[], 0⟩, 15, zeroHash⟩

/-- Engine holding one entry for key k that expires at second 2. -/
def c5Engine : Engine :=
  { shards := [[("k", ⟨[5, 6], 2⟩)]]
    shardMask := 0
    shardCount := 1
    maxKeySize := 256
    maxValueSize := 1024
    maxMemory := 1000000
    memUsage := 35
    ttlq := [("k", 2)]
    closed := false
    hashFn := zeroHash }

/-- Engine holding one never-expiring entry for key k (the state after the
entry above was overwritten with no TTL), next to a stale heap item. -/
def c6Engine : Engine :=
  { shards := [[("k", ⟨[5, 6], 0⟩)]]
    shardMask := 0
    shardCount := 1
    maxKeySize := 256
    maxValueSize := 1024
    maxMemory := 1000000
    memUsage := 35
    ttlq := [("k", 100)]
    closed := false
    hashFn := zeroHash }

/-- Variant-A service state after set(k, [5,6], ttl 100ms at time 0) and a
later set(k, [5,6], no ttl): the entry no longer expires, but the heap
still holds the stale item (k, 100).  Counters are coherent (3 = 3). -/
def c6Service : ServiceA :=
  { cfg := ⟨256, 1048576, 268435456⟩
    cm := ⟨[⟨[("k", ⟨[5, 6], 0⟩)], 3⟩], 0, zeroHash⟩
    memUsage := 3
    ttlHeap := [("k", 100)] }

/-- Variant-A service state holding one entry for key k that expires at
millisecond 25; counters are coherent (2 = 2). -/
def c8Service : ServiceA :=
  { cfg := ⟨256, 1048576, 268435456⟩
    cm := ⟨[⟨[("k", ⟨[9], 25⟩)], 2⟩], 0, zeroHash⟩
    memUsage := 2
    ttlHeap := [("k", 25)] }

/-- Engine in which key k holds a 100-byte value, with maxMemory 140: the
stored entry estimates to 1 + 100 + 32 = 133 bytes. -/
def c3Engine : Engine :=
  { shards := [[("k", ⟨List.replicate 100 7, 0⟩)]]
    shardMask := 0
    shardCount := 1
    maxKeySize := 256
    maxValueSize := 1024
    maxMemory := 140
    memUsage := 133
    ttlq := []
    closed := false
    hashFn := zeroHash }

/-- Startup environment with AOF enabled but no log file on disk, RDB
enabled, and a nonempty snapshot available. -/
def c2Env : StartupEnv :=
  ⟨true, true, false, "", some [⟨"sk", [1], 0⟩]⟩

/-- One-shard engine with a permanent entry a and an entry b expiring at
second 5; the memory counter matches the estimates (34 + 34). -/
def c9Engine : Engine :=
  { shards := [[("a", ⟨[1], 0⟩), ("b", ⟨[2], 5⟩)]]
    shardMask := 0
    shardCount := 1
    maxKeySize := 256
    maxValueSize := 1024
    maxMemory := 1000
    memUsage := 68
    ttlq := [("b", 5)]
    closed := false
    hashFn := zeroHash }

/-! Association-list lemmas. -/

theorem listLookup_insert {α : Type} (l : List (String × α)) (k : String)
    (v : α) (key : String) :
    listLookup (listInsert l k v) key =
      if k = key then some v else listLookup l key := by
  induction l with
  | nil => rfl
  | cons hd tl ih =>
      obtain ⟨k0, v0⟩ := hd
      simp only [listInsert]
      by_cases h0 : k0 = k
      · rw [if_pos h0]
        subst h0
        by_cases h : k0 = key <;> simp [listLookup, h]
      · rw [if_neg h0]
        by_cases h : k0 = key
        · have hk : ¬ k = key := fun hh => h0 (h.trans hh.symm)
          simp [listLookup, h, hk]
        · simp [listLookup, h, ih]

theorem listLookup_eq_none {α : Type} (l : List (String × α)) (k : String)
    (h : k ∉ l.map Prod.fst) : listLookup l k = none := by
  induction l with
  | nil => rfl
  | cons hd tl ih =>
      obtain ⟨k0, v0⟩ := hd
      simp only [List.map_cons, List.mem_cons] at h
      push_neg at h
      simp only [listLookup]
      rw [if_neg (fun hh => h.1 hh.symm)]
      exact ih h.2

theorem listLookup_erase_ne {α : Type} (l : List (String × α)) (k key : String)
    (hne : k ≠ key) :
    listLookup (listErase l k) key = listLookup l key := by
  induction l with
  | nil => rfl
  | cons hd tl ih =>
      obtain ⟨k0, v0⟩ := hd
      simp only [listErase]
      by_cases h0 : k0 = k
      · rw [if_pos h0]
        subst h0
        simp only [listLookup]
        rw [if_neg hne]
      · rw [if_neg h0]
        simp only [listLookup]
        by_cases h : k0 = key <;> simp [h, ih]

theorem listLookup_erase_self {α : Type} (l : List (String × α)) (k : String)
    (hnd : keysNodup l) :
    listLookup (listErase l k) k = none := by
  induction l with
  | nil => rfl
  | cons hd tl ih =>
      obtain ⟨k0, v0⟩ := hd
      simp only [keysNodup, List.map_cons, List.nodup_cons] at hnd
      simp only [listErase]
      by_cases h0 : k0 = k
      · rw [if_pos h0]
        subst h0
        exact listLookup_eq_none tl k0 hnd.1
      · rw [if_neg h0]
        simp only [listLookup]
        rw [if_neg h0]
        exact ih hnd.2

theorem keys_insert_of_mem {α : Type} (l : List (String × α)) (k : String)
    (v : α) (h : k ∈ l.map Prod.fst) :
    (listInsert l k v).map Prod.fst = l.map Prod.fst := by
  induction l with
  | nil => simp at h
  | cons hd tl ih =>
      obtain ⟨k0, v0⟩ := hd
      simp only [listInsert]
      by_cases h0 : k0 = k
      · rw [if_pos h0]; simp [h0]
      · rw [if_neg h0]
        simp only [List.map_cons, List.mem_cons] at h
        rcases h with h | h
        · exact absurd h.symm h0
        · simp [ih h]

theorem keys_insert_of_not_mem {α : Type} (l : List (String × α)) (k : String)
    (v : α) (h : k ∉ l.map Prod.fst) :
    (listInsert l k v).map Prod.fst = l.map Prod.fst ++ [k] := by
  induction l with
  | nil => rfl
  | cons hd tl ih =>
      obtain ⟨k0, v0⟩ := hd
      simp only [List.map_cons, List.mem_cons] at h
      push_neg at h
      simp only [listInsert]
      rw [if_neg (fun hh => h.1 hh.symm)]
      simp [ih h.2]

theorem keysNodup_insert {α : Type} (l : List (String × α)) (k : String)
    (v : α) (hnd : keysNodup l) : keysNodup (listInsert l k v) := by
  by_cases h : k ∈ l.map Prod.fst
  · unfold keysNodup
    rw [keys_insert_of_mem l k v h]
    exact hnd
  · unfold keysNodup
    rw [keys_insert_of_not_mem l k v h]
    simp only [List.nodup_append, List.nodup_cons, List.not_mem_nil,
      List.nodup_nil, and_true, not_false_iff, true_and]
    constructor
    · exact hnd
    · intro a ha
      simp only [List.mem_singleton]
      intro hak
      exact h (hak ▸ ha)

theorem keys_erase_sublist {α : Type} (l : List (String × α)) (k : String) :
    ((listErase l k).map Prod.fst).Sublist (l.map Prod.fst) := by
  induction l with
  | nil => simp [listErase]
  | cons hd tl ih =>
      obtain ⟨k0, v0⟩ := hd
      simp only [listErase]
      by_cases h0 : k0 = k
      · rw [if_pos h0]
        exact (List.sublist_cons_self _ _)
      · rw [if_neg h0]
        simpa using ih.cons₂ k0

theorem keysNodup_erase {α : Type} (l : List (String × α)) (k : String)
    (hnd : keysNodup l) : keysNodup (listErase l k) :=
  List.Nodup.sublist (keys_erase_sublist l k) hnd


theorem getD_set_self {α : Type} (l : List α) (i : Nat) (x d : α)
    (h : i < l.length) : (l.set i x).getD i d = x := by
  rw [List.getD_eq_getElem _ d (by simpa using h)]
  exact List.getElem_set_self (h := by simpa using h)

theorem getD_set_ne {α : Type} (l : List α) (i j : Nat) (x d : α)
    (hne : i ≠ j) : (l.set i x).getD j d = l.getD j d := by
  by_cases hj : j < l.length
  · rw [List.getD_eq_getElem _ d (by simpa using hj), List.getD_eq_getElem _ d hj]
    exact List.getElem_set_ne hne _
  · rw [List.getD_eq_default, List.getD_eq_default] <;> simp at hj ⊢ <;> omega

theorem sum_map_set {α : Type} (f : α → Int) (l : List α) (i : Nat) (x : α)
    (h : i < l.length) :
    ((l.set i x).map f).sum = (l.map f).sum + f x - f (l.getD i x) := by
  induction l generalizing i with
  | nil => simp at h
  | cons hd tl ih =>
      cases i with
      | zero => simp [List.set]; ring
      | succ n =>
          simp only [List.set, List.map_cons, List.sum_cons, List.getD_cons_succ]
          rw [ih n (by simpa using h)]
          ring

/-! Shard-arithmetic lemmas. -/

theorem cmShardIdx_lt (cm : CMap) (key : String) (hwf : cmWF cm) :
    cmShardIdx cm key < cm.shards.length :=
  lt_of_le_of_lt Nat.and_le_right hwf

/-- claim C10: every map built by NewConcurrentMap, for any shard count
at least 1 (power of two or not), allocates shardCount shards, uses
shardMask = shardCount - 1, and getShard computes an index that is always
strictly below the number of allocated shards. -/
theorem newConcurrentMap_shardIdx_safe (n : Nat) (hn : 1 ≤ n)
    (hashFn : String → Nat) (key : String) :
    (newConcurrentMap n hashFn).shards.length = n ∧
    (newConcurrentMap n hashFn).shardMask = n - 1 ∧
    cmShardIdx (newConcurrentMap n hashFn) key <
      (newConcurrentMap n hashFn).shards.length := by
  have hcount : newConcurrentMapShardCount n = n := by
    unfold newConcurrentMapShardCount
    have hle : n ≤ 2 ^ Nat.clog 2 n := Nat.le_pow_clog (by norm_num) n
    by_cases h : 2 ^ Nat.clog 2 n > n
    · simp [h]
    · simp only [h, if_false]
      omega
  refine ⟨?_, ?_, ?_⟩
  · simp [newConcurrentMap, hcount]
  · simp [newConcurrentMap, hcount]
  · have hlen : (newConcurrentMap n hashFn).shards.length = n := by
      simp [newConcurrentMap, hcount]
    have hmask : (newConcurrentMap n hashFn).shardMask = n - 1 := by
      simp [newConcurrentMap, hcount]
    rw [hlen]
    calc cmShardIdx (newConcurrentMap n hashFn) key
        ≤ (newConcurrentMap n hashFn).shardMask := Nat.and_le_right
      _ = n - 1 := hmask
      _ < n := by omega

/-- claim C4: ConcurrentMap.Set returns len(value) - len(old value) when
the key exists and len(key) + len(value) when it does not;
ConcurrentMap.Delete returns 0 when the key is absent and
-(len(key) + len(value)) of the removed entry when present; and in both
cases the shard byte counter moves by exactly the returned delta. -/
theorem cmap_set_delete_delta (cm : CMap) (key : String) (value : Bytes)
    (expiresAt : Int) (hwf : cmWF cm) :
    (∀ old, listLookup (cmShard cm key).items key = some old →
        (cmSet cm key value expiresAt).2 =
          (value.length : Int) - (old.value.length : Int) ∧
        (cmDelete cm key).2 =
          -((byteLen key : Int) + (old.value.length : Int))) ∧
    (listLookup (cmShard cm key).items key = none →
        (cmSet cm key value expiresAt).2 =
          (byteLen key : Int) + (value.length : Int) ∧
        (cmDelete cm key).2 = 0) ∧
    (cmShard (cmSet cm key value expiresAt).1 key).mem =
        (cmShard cm key).mem + (cmSet cm key value expiresAt).2 ∧
    (cmShard (cmDelete cm key).1 key).mem =
        (cmShard cm key).mem + (cmDelete cm key).2 := by
  have hidx : cmShardIdx cm key < cm.shards.length := cmShardIdx_lt cm key hwf
  refine ⟨?_, ?_, ?_, ?_⟩
  · intro old hl
    simp only [cmShard] at hl
    simp only [cmSet, cmDelete, cmShard, hl]
    constructor
    · push_cast [Int.ofNat_eq_natCast]
      ring
    · push_cast [Int.ofNat_eq_natCast]
      ring
  · intro hl
    simp only [cmShard] at hl
    simp only [cmSet, cmDelete, cmShard, hl]
    constructor
    · push_cast [Int.ofNat_eq_natCast]
      ring
    · simp
  · simp only [cmShardIdx] at hidx
    rcases hl : listLookup (cmShard cm key).items key with _ | old <;>
      simp only [cmShard, cmShardIdx] at hl <;>
      simp only [cmSet, cmShard, cmShardIdx, hl] <;>
      rw [getD_set_self _ _ _ _ hidx]
  · simp only [cmShardIdx] at hidx
    rcases hl : listLookup (cmShard cm key).items key with _ | old
    · simp only [cmShard, cmShardIdx] at hl
      simp only [cmDelete, cmShard, cmShardIdx, hl]
      simp
    · simp only [cmShard, cmShardIdx] at hl
      simp only [cmDelete, cmShard, cmShardIdx, hl]
      rw [getD_set_self _ _ _ _ hidx]

/-- Witness for cmap_set_delete_delta: a two-shard map whose shard 0 holds
k with a 2-byte value; overwriting with a 5-byte value yields delta 3,
deleting yields delta -3, and the shard counter follows. -/
theorem cmap_set_delete_delta_witness :
    (cmSet ⟨[⟨[("k", ⟨[7, 8], 0⟩)], 3⟩, ⟨[], 0⟩], 1, zeroHash⟩
        "k" [1, 2, 3, 4, 5] 0).2 = 3 ∧
    (cmDelete ⟨[⟨[("k", ⟨[7, 8], 0⟩)], 3⟩, ⟨[], 0⟩], 1, zeroHash⟩ "k").2 = -3 ∧
    (cmShard (cmSet ⟨[⟨[("k", ⟨[7, 8], 0⟩)], 3⟩, ⟨[], 0⟩], 1, zeroHash⟩
        "k" [1, 2, 3, 4, 5] 0).1 "k").mem = 6 := by
  have h := cmap_set_delete_delta
    ⟨[⟨[("k", ⟨[7, 8], 0⟩)], 3⟩, ⟨[], 0⟩], 1, zeroHash⟩ "k" [1, 2, 3, 4, 5] 0
    (by simp [cmWF])
  obtain ⟨hsome, _, hmemset, _⟩ := h
  have hl : listLookup
      (cmShard ⟨[⟨[("k", ⟨[7, 8], 0⟩)], 3⟩, ⟨[], 0⟩], 1, zeroHash⟩ "k").items "k" =
      some ⟨[7, 8], 0⟩ := by decide
  obtain ⟨h1, h2⟩ := hsome ⟨[7, 8], 0⟩ hl
  refine ⟨by rw [h1]; decide, by rw [h2]; decide, ?_⟩
  rw [hmemset, h1]
  decide

/-- The delta returned by ConcurrentMap.Set never exceeds the conservative
estimate len(key) + len(value). -/
theorem cmSet_delta_le (cm : CMap) (key : String) (value : Bytes)
    (expiresAt : Int) :
    (cmSet cm key value expiresAt).2 ≤ (byteLen key : Int) + value.length := by
  unfold cmSet
  rcases h : listLookup (cm.shards.getD (cmShardIdx cm key) ⟨[], 0⟩).items key
    with _ | old
  · simp only [h]
    simp only [Int.ofNat_eq_natCast, Nat.cast_add]
    omega
  · simp only [h]
    simp only [Int.ofNat_eq_natCast, Nat.cast_add]
    ring_nf
    omega

/-- The delta returned by ConcurrentMap.Delete is never positive. -/
theorem cmDelete_delta_nonpos (cm : CMap) (key : String) :
    (cmDelete cm key).2 ≤ 0 := by
  unfold cmDelete
  rcases h : listLookup (cm.shards.getD (cmShardIdx cm key) ⟨[], 0⟩).items key
    with _ | old
  · simp only [h]
    exact le_refl 0
  · simp only [h]
    simp only [Int.ofNat_eq_natCast, Nat.cast_add]
    ring_nf
    omega

/-- Service.Set never changes the configuration. -/
theorem svcSet_cfg (s : ServiceA) (key : String) (value : Bytes)
    (ttlMs nowMs : Int) : (svcSet s key value ttlMs nowMs).1.cfg = s.cfg := by
  rcases h1 : svcValidateKey s.cfg key with _ | e
  · rcases h2 : svcValidateValue s.cfg value with _ | e
    · simp only [svcSet, h1, h2]
      split <;> rfl
    · simp only [svcSet, h1, h2]
  · simp only [svcSet, h1]

/-- One Service.Set call keeps the global memory counter at or below
max_memory: the pre-mutation check uses the conservative estimate, and the
actual delta never exceeds it. -/
theorem svcSet_bound (s : ServiceA) (key : String) (value : Bytes)
    (ttlMs nowMs : Int) (h : s.memUsage ≤ s.cfg.maxMemory) :
    (svcSet s key value ttlMs nowMs).1.memUsage ≤ s.cfg.maxMemory := by
  rcases h1 : svcValidateKey s.cfg key with _ | e
  · rcases h2 : svcValidateValue s.cfg value with _ | e
    · simp only [svcSet, h1, h2]
      split
      · exact h
      · rename_i hm
        have hd := cmSet_delta_le s.cm key value
          (if ttlMs > 0 then nowMs + ttlMs else 0)
        simp only [Int.ofNat_eq_natCast, Nat.cast_add, not_lt] at hm
        simp only []
        omega
    · simp only [svcSet, h1, h2]
      exact h
  · simp only [svcSet, h1]
    exact h

/-- The Engine entry-size estimate is strictly positive (it includes the
32-byte overhead). -/
theorem estimateEntrySize_pos (key : String) (value : Bytes) :
    0 < estimateEntrySize key value := by
  unfold estimateEntrySize
  simp only [Int.ofNat_eq_natCast]
  have h : 0 < byteLen key + value.length + 32 := by omega
  exact_mod_cast h

/-- claim C3 (amended), counterexample setup on the Engine: overwriting a
large value with a small one passes the memory check even when mem_usage +
len(key) + len(value) exceeds max_memory, because the Engine checks the
net (overhead-inclusive) delta and only when it is positive. -/
theorem engine_set_overwrite_counterexample :
    c3Engine.memUsage + Int.ofNat (byteLen "k" + 10) > c3Engine.maxMemory ∧
    engineSetWithExpiresAt c3Engine "k" (List.replicate 10 3) 0 =
      .ok { c3Engine with
            shards := [[("k", ⟨List.replicate 10 3, 0⟩)]]
            memUsage := 43 } :=
  ⟨by decide, by rfl⟩

/-- claim C3 (amended): in the ConcurrentMap-based service the check is
literally mem_usage + len(key) + len(value) > max_memory, evaluated before
any mutation, and an over-capacity call returns MemoryFull with the state
identically unchanged; no sequence of Service.Set calls ever drives the
global counter above max_memory; and in the Engine every accepted
SetWithExpiresAt leaves the counter at or below max_memory as well. -/
theorem set_memory_bound (s : ServiceA) (key : String) (value : Bytes)
    (ttlMs nowMs : Int) (calls : List (String × Bytes × Int × Int))
    (e : Engine) (ekey : String) (evalue : Bytes) (eexp : Int) :
    (svcValidateKey s.cfg key = none →
     svcValidateValue s.cfg value = none →
     s.cfg.maxMemory < s.memUsage + Int.ofNat (byteLen key + value.length) →
     svcSet s key value ttlMs nowMs = (s, some .memoryFull)) ∧
    (s.memUsage ≤ s.cfg.maxMemory →
     (svcSetMany s calls).memUsage ≤ s.cfg.maxMemory) ∧
    (e.memUsage ≤ e.maxMemory →
     ∀ e2, engineSetWithExpiresAt e ekey evalue eexp = .ok e2 →
       e2.memUsage ≤ e2.maxMemory) := by
  refine ⟨?_, ?_, ?_⟩
  · intro hk hv hover
    simp only [svcSet, hk, hv]
    rw [if_pos hover]
  · intro h
    induction calls generalizing s with
    | nil => exact h
    | cons c rest ih =>
        simp only [svcSetMany]
        have hstep := svcSet_bound s c.1 c.2.1 c.2.2.1 c.2.2.2 h
        have hcfg := svcSet_cfg s c.1 c.2.1 c.2.2.1 c.2.2.2
        have := ih (svcSet s c.1 c.2.1 c.2.2.1 c.2.2.2).1 (by rw [hcfg]; exact hstep)
        rwa [hcfg] at this
  · intro h e2 hok
    unfold engineSetWithExpiresAt at hok
    by_cases hc : e.closed
    · simp [hc] at hok
    · simp only [hc, if_false] at hok
      rcases hval : engineValidate e ekey evalue with _ | err
      · simp only [hval] at hok
        rcases hlook : listLookup (e.shards.getD (engineShardIdx e ekey) []) ekey
          with _ | old
        · simp only [hlook, sub_zero] at hok
          by_cases hm : estimateEntrySize ekey evalue > 0 ∧
              e.memUsage + estimateEntrySize ekey evalue > e.maxMemory
          · rw [if_pos hm] at hok
            cases hok
          · rw [if_neg hm] at hok
            cases hok
            push_neg at hm
            have hest := estimateEntrySize_pos ekey evalue
            have h2 := hm hest
            simp only [sub_zero]
            omega
        · simp only [hlook] at hok
          by_cases hm : estimateEntrySize ekey evalue -
                estimateEntrySize ekey old.value > 0 ∧
              e.memUsage + (estimateEntrySize ekey evalue -
                estimateEntrySize ekey old.value) > e.maxMemory
          · rw [if_pos hm] at hok
            cases hok
          · rw [if_neg hm] at hok
            cases hok
            push_neg at hm
            simp only []
            rcases lt_or_le 0 (estimateEntrySize ekey evalue -
                estimateEntrySize ekey old.value) with hpos | hnonpos
            · have h2 := hm hpos
              omega
            · omega
      · simp only [hval] at hok
        simp at hok

/-- Witness for set_memory_bound: a service with max_memory 64 rejects a
65-byte write with MemoryFull leaving the state unchanged, a one-call list
keeps the bound, and an accepted Engine write respects its cap. -/
theorem set_memory_bound_witness :
    (svcSet ⟨⟨256, 1024, 64⟩, newConcurrentMap 1 zeroHash, 0, []⟩ "k"
        (List.replicate 65 1) 0 0 =
      (⟨⟨256, 1024, 64⟩, newConcurrentMap 1 zeroHash, 0, []⟩,
        some .memoryFull)) ∧
    (svcSetMany ⟨⟨256, 1024, 64⟩, newConcurrentMap 1 zeroHash, 0, []⟩
        [("k", [1, 2], 0, 0)]).memUsage ≤ 64 ∧
    ∀ e2, engineSetWithExpiresAt (newEngine 1 256 1024 1000 zeroHash)
        "k" [1, 2] 0 = .ok e2 → e2.memUsage ≤ e2.maxMemory := by
  have h := set_memory_bound ⟨⟨256, 1024, 64⟩, newConcurrentMap 1 zeroHash, 0, []⟩
    "k" (List.replicate 65 1) 0 0 [("k", [1, 2], 0, 0)]
    (newEngine 1 256 1024 1000 zeroHash) "k" [1, 2] 0
  exact ⟨h.1 (by decide) (by decide) (by decide), h.2.1 (by decide),
    h.2.2 (by decide)⟩

/-- Engine shard indices stay inside the allocated slice. -/
theorem engineShardIdx_lt (e : Engine) (key : String) (h : engineIdxOk e) :
    engineShardIdx e key < e.shards.length := by
  obtain ⟨hcount, hpos, hmask⟩ := h
  unfold engineShardIdx
  by_cases hm : e.shardMask > 0
  · rw [if_pos hm]
    rcases hmask with h0 | hlt
    · omega
    · exact lt_of_le_of_lt Nat.and_le_right hlt
  · rw [if_neg hm]
    rw [← hcount] at hpos ⊢
    exact Nat.mod_lt _ hpos

/-- engineDeleteIfExpired where all validation conditions hold: the entry
is removed from its shard and the memory counter adjusted. -/
theorem deleteIfExpired_removes (e : Engine) (key : String) (ea now : Int)
    (ent : Entry) (hl : engineLookup e key = some ent)
    (heq : ent.expiresAt = ea) (hne : ea ≠ 0) (hle : ea ≤ now) :
    engineDeleteIfExpired e key ea now =
      { e with
        shards := e.shards.set (engineShardIdx e key)
          (listErase (engineShardItems e key) key)
        memUsage := e.memUsage - estimateEntrySize key ent.value } := by
  unfold engineDeleteIfExpired
  rw [if_neg hne]
  unfold engineLookup engineShardItems at hl
  simp only [hl]
  rw [if_neg]
  · rfl
  · push_neg
    exact ⟨heq, by omega, by omega⟩

/-- engineDeleteIfExpired where some validation condition fails: the
engine is untouched. -/
theorem deleteIfExpired_noop (e : Engine) (key : String) (ea now : Int)
    (h : ea = 0 ∨ engineLookup e key = none ∨
      ∃ ent, engineLookup e key = some ent ∧
        (ent.expiresAt ≠ ea ∨ ent.expiresAt = 0 ∨ ent.expiresAt > now)) :
    engineDeleteIfExpired e key ea now = e := by
  unfold engineDeleteIfExpired
  rcases h with h0 | hnone | ⟨ent, hent, hcond⟩
  · rw [if_pos h0]
  · by_cases hea : ea = 0
    · rw [if_pos hea]
    · rw [if_neg hea]
      unfold engineLookup engineShardItems at hnone
      simp only [hnone]
  · by_cases hea : ea = 0
    · rw [if_pos hea]
    · rw [if_neg hea]
      unfold engineLookup engineShardItems at hent
      simp only [hent]
      rw [if_pos hcond]

/-- claim C5 (amended): a lazily expired entry reads as absent in both
maps, and exists agrees with get; ConcurrentMap.Get performs a pure read,
while Engine.Get removes the expired entry during the read (an immediate
validated deletion), adjusting the engine memory counter. -/
theorem lazy_expiration_read (cm : CMap) (key : String) (nowMs : Int)
    (ent : Entry) (e : Engine) (ent2 : Entry) (nowSec : Int)
    (hl : listLookup (cmShard cm key).items key = some ent)
    (hexp : ent.expiresAt > 0 ∧ nowMs > ent.expiresAt)
    (hl2 : engineLookup e key = some ent2)
    (hexp2 : isExpiredB ent2.expiresAt nowSec)
    (hidx : engineIdxOk e)
    (hnd : keysNodup (engineShardItems e key)) :
    cmGet cm key nowMs = none ∧
    cmExists cm key nowMs = false ∧
    (engineGet e key nowSec).1 = none ∧
    (engineExists e key nowSec).1 = false ∧
    engineLookup (engineGet e key nowSec).2 key = none ∧
    (engineGet e key nowSec).2.memUsage =
      e.memUsage - estimateEntrySize key ent2.value := by
  have hget : engineGet e key nowSec =
      (none, engineDeleteIfExpired e key ent2.expiresAt nowSec) := by
    unfold engineGet
    simp only [hl2]
    rw [if_pos hexp2]
  have hdel := deleteIfExpired_removes e key ent2.expiresAt nowSec ent2 hl2 rfl
    (by rcases hexp2 with ⟨h1, _⟩; omega) hexp2.2
  refine ⟨?_, ?_, ?_, ?_, ?_, ?_⟩
  · unfold cmGet
    simp only [hl]
    rw [if_pos hexp]
  · unfold cmExists
    simp only [hl]
    simp [hexp.1, hexp.2]
  · rw [hget]
  · unfold engineExists
    rw [hget]
    rfl
  · rw [hget]
    simp only []
    rw [hdel]
    show listLookup
      ((e.shards.set (engineShardIdx e key)
          (listErase (engineShardItems e key) key)).getD
        (engineShardIdx e key) []) key = none
    rw [getD_set_self _ _ _ _ (engineShardIdx_lt e key hidx)]
    exact listLookup_erase_self _ key hnd
  · rw [hget]
    simp only []
    rw [hdel]

/-- Witness for lazy_expiration_read on concrete expired states. -/
theorem lazy_expiration_read_witness :
    cmGet ⟨[⟨[("k", ⟨[9], 5⟩)], 2⟩], 0, zeroHash⟩ "k" 10 = none ∧
    cmExists ⟨[⟨[("k", ⟨[9], 5⟩)], 2⟩], 0, zeroHash⟩ "k" 10 = false ∧
    (engineGet c5Engine "k" 2).1 = none ∧
    (engineExists c5Engine "k" 2).1 = false ∧
    engineLookup (engineGet c5Engine "k" 2).2 "k" = none ∧
    (engineGet c5Engine "k" 2).2.memUsage =
      c5Engine.memUsage - estimateEntrySize "k" [5, 6] :=
  lazy_expiration_read ⟨[⟨[("k", ⟨[9], 5⟩)], 2⟩], 0, zeroHash⟩ "k" 10
    ⟨[9], 5⟩ c5Engine ⟨[5, 6], 2⟩ 2 (by decide) (by decide) (by decide)
    (by decide) (by refine ⟨by decide, by decide, Or.inl (by decide)⟩)
    (by decide)

/-- claim C5, counterexample to the claim as stated: Engine.Get on the
lazily expired key k does not leave the map unchanged — the read deletes
the entry and debits the memory counter. -/
theorem engine_get_mutates_counterexample :
    (engineGet c5Engine "k" 2).1 = none ∧
    (engineGet c5Engine "k" 2).2.shards = [[]] ∧
    (engineGet c5Engine "k" 2).2.memUsage = 0 ∧
    c5Engine.shards = [[("k", ⟨[5, 6], 2⟩)]] ∧
    c5Engine.memUsage = 35 := by
  decide

/-- claim C6: the TTLManager-based service deletes a popped due heap entry
unconditionally.  Key k was overwritten with no expiration (stored
expires_at = 0, different from the heap entry's 100), yet the expirer
step at time 100 removes it; the Engine's validated deleteIfExpired, on
the analogous state, discards the stale entry and leaves the map alone. -/
theorem ttl_expire_unvalidated_delete :
    listLookup (cmShard c6Service.cm "k").items "k" = some ⟨[5, 6], 0⟩ ∧
    c6Service.ttlHeap = [("k", 100)] ∧
    listLookup (cmShard (svcExpireStep c6Service 100).cm "k").items "k" =
      none ∧
    (svcExpireStep c6Service 100).ttlHeap = [] ∧
    engineDeleteIfExpired c6Engine "k" 100 100 = c6Engine ∧
    evictExpired c6Engine 100 = { c6Engine with ttlq := [] } :=
  ⟨by decide, by decide, by decide, by decide, by rfl, by rfl⟩

/-- claim C8: an active TTL expiration in the TTLManager-based service
decrements the shard byte counters but not the coordinator's global
counter — the onExpire callback discards the delta returned by
storage.Delete.  Starting from the coherent state (2 = 2), one expirer
step leaves 2 against 0. -/
theorem expire_memory_counter_desync :
    c8Service.memUsage = cmMemUsage c8Service.cm ∧
    c8Service.memUsage = 2 ∧
    (svcExpireStep c8Service 25).memUsage = 2 ∧
    cmMemUsage (svcExpireStep c8Service 25).cm = 0 := by
  decide

/-- claim C2, counterexample: AOL enabled, log file absent, snapshot
present and nonempty — yet startup replays the (freshly created, empty)
log and never reads the snapshot, leaving the store empty. -/
theorem startup_snapshot_skipped_counterexample :
    c2Env.aofEnabled = true ∧
    c2Env.aofFileExists = false ∧
    c2Env.rdbEnabled = true ∧
    c2Env.rdbLatest = some [⟨"sk", [1], 0⟩] ∧
    startupLoadsSnapshot c2Env = false ∧
    startupB c2Env c1Engine0 0 = .ok c1Engine0 ∧
    engineLookup c1Engine0 "sk" = none :=
  ⟨by decide, by decide, by decide, by decide, by decide, by rfl, by decide⟩

/-- claim C2 (amended): when AOL is enabled the store is initialized from
the log alone — the log file is created empty if absent, and the snapshot
is never read; the snapshot is loaded exactly when AOL is disabled, RDB is
enabled, and LoadLatest yields a nonempty record list. -/
theorem startup_preference (env : StartupEnv) (e0 : Engine) (nowSec : Int) :
    (env.aofEnabled = true →
      startupB env e0 nowSec =
        match openAndReplayB e0
            (if env.aofFileExists then env.aofContent else "") nowSec with
        | .ok (e1, _) => .ok e1
        | .error err => .error err) ∧
    (env.aofEnabled = false → env.rdbEnabled = true →
      ∀ rs, env.rdbLatest = some rs → rs ≠ [] →
        startupB env e0 nowSec = engineRestore e0 rs nowSec) ∧
    (startupLoadsSnapshot env = true ↔
      env.aofEnabled = false ∧ env.rdbEnabled = true ∧
        ∃ rs, env.rdbLatest = some rs ∧ rs ≠ []) := by
  refine ⟨?_, ?_, ?_⟩
  · intro ha
    unfold startupB
    have hload : startupLoadsSnapshot env = false := by
      unfold startupLoadsSnapshot
      rw [ha]
      simp
    rw [hload]
    rcases h : openAndReplayB e0
        (if env.aofFileExists then env.aofContent else "") nowSec
      with ⟨e1, c⟩ | err <;> simp [ha, h]
  · intro ha hr rs hrs hne
    unfold startupB
    have hload : startupLoadsSnapshot env = true := by
      unfold startupLoadsSnapshot
      rw [ha, hr, hrs]
      simp [hne]
    rw [hload]
    simp [ha, hrs]
  · unfold startupLoadsSnapshot
    rcases hrl : env.rdbLatest with _ | rs
    · simp
    · rcases rs with _ | ⟨r, rest⟩ <;>
        cases ha : env.aofEnabled <;> cases hr : env.rdbEnabled <;> simp

/-- Witness for startup_preference: the AOL path at c2Env and the
snapshot path at the same environment with AOL disabled. -/
theorem startup_preference_witness :
    (startupB c2Env c1Engine0 0 =
      match openAndReplayB c1Engine0 "" 0 with
      | .ok (e1, _) => .ok e1
      | .error err => .error err) ∧
    startupB ⟨false, true, false, "", some [⟨"sk", [1], 0⟩]⟩ c1Engine0 0 =
      engineRestore c1Engine0 [⟨"sk", [1], 0⟩] 0 := by
  constructor
  · exact (startup_preference c2Env c1Engine0 0).1 (by decide)
  · exact (startup_preference ⟨false, true, false, "", some [⟨"sk", [1], 0⟩]⟩
      c1Engine0 0).2.1 (by decide) (by decide) [⟨"sk", [1], 0⟩] rfl (by decide)

/-- Int.ediv is the division that the / notation denotes. -/
theorem ediv_eq_div (a b : Int) : a.ediv b = a / b := rfl

/-- Int.emod is the remainder that the % notation denotes. -/
theorem emod_eq_mod (a b : Int) : a.emod b = a % b := rfl

/-- Go's % (T-division remainder) agrees with the Euclidean remainder on
nonnegative operands. -/
theorem kvTmod_eq_emod {a b : Int} (ha : 0 ≤ a) (hb : 0 ≤ b) :
    a.tmod b = a.emod b := by
  lift a to Nat using ha
  lift b to Nat using hb
  rfl

/-- Truncated division agrees with Euclidean division on nonnegative
operands. -/
theorem kvTdiv_eq_ediv {a b : Int} (ha : 0 ≤ a) (hb : 0 ≤ b) :
    a.tdiv b = a.ediv b := by
  lift a to Nat using ha
  lift b to Nat using hb
  rfl

/-- claim C7 (amended): both TTL paths return KeyNotFound for absent (or
lazily expired) keys and -1 when no expiration is set; for a live entry
with an expiration, the ConcurrentMap-based Service.TTL returns the
remaining time in whole seconds rounded UP (1000(q-1) < remaining ≤
1000q milliseconds), while the Engine-based chain returns it rounded to
the NEAREST whole second, half away from zero (1000q - 500 ≤ remaining <
1000q + 500). -/
theorem ttl_rounding (s : ServiceA) (key : String) (nowMs : Int)
    (ent : Entry) (e : Engine) (ekey : String) (enowMs : Int) (ent2 : Entry)
    (hk : svcValidateKey s.cfg key = none) :
    (cmGet s.cm key nowMs = none →
      svcTTL s key nowMs = .error .keyNotFound) ∧
    (listLookup (cmShard s.cm key).items key = some ent →
      ¬(ent.expiresAt > 0 ∧ nowMs > ent.expiresAt) →
      ent.expiresAt = 0 → svcTTL s key nowMs = .ok (-1)) ∧
    (listLookup (cmShard s.cm key).items key = some ent →
      ¬(ent.expiresAt > 0 ∧ nowMs > ent.expiresAt) →
      ent.expiresAt > 0 →
      ∃ q, svcTTL s key nowMs = .ok q ∧
        1000 * (q - 1) < ent.expiresAt - nowMs ∧
        ent.expiresAt - nowMs ≤ 1000 * q) ∧
    (engineLookup e ekey = none →
      (svcBTTL e ekey enowMs).1 = .error .keyNotFound) ∧
    (engineLookup e ekey = some ent2 →
      isExpiredB ent2.expiresAt (enowMs.ediv 1000) →
      (svcBTTL e ekey enowMs).1 = .error .keyNotFound) ∧
    (engineLookup e ekey = some ent2 → ent2.expiresAt = 0 →
      (svcBTTL e ekey enowMs).1 = .ok (-1)) ∧
    (engineLookup e ekey = some ent2 → ent2.expiresAt > 0 →
      ¬ isExpiredB ent2.expiresAt (enowMs.ediv 1000) →
      ∃ q, (svcBTTL e ekey enowMs).1 = .ok q ∧
        1000 * q - 500 ≤ ent2.expiresAt * 1000 - enowMs ∧
        ent2.expiresAt * 1000 - enowMs < 1000 * q + 500) := by
  refine ⟨?_, ?_, ?_, ?_, ?_, ?_, ?_⟩
  · intro hget
    unfold svcTTL
    simp only [hk, hget]
  · intro hl hnot hz
    have hget : cmGet s.cm key nowMs = some (ent.value, ent.expiresAt) := by
      unfold cmGet
      simp only [hl]
      rw [if_neg hnot]
    unfold svcTTL
    simp only [hk, hget]
    rw [if_pos hz]
  · intro hl hnot hpos
    have hget : cmGet s.cm key nowMs = some (ent.value, ent.expiresAt) := by
      unfold cmGet
      simp only [hl]
      rw [if_neg hnot]
    have hle : nowMs ≤ ent.expiresAt := by
      by_contra hcon
      exact hnot ⟨hpos, by omega⟩
    unfold svcTTL
    simp only [hk, hget]
    rw [if_neg (by omega : ¬ ent.expiresAt = 0)]
    rw [if_neg (by omega : ¬ ent.expiresAt - nowMs < 0)]
    refine ⟨-((-(ent.expiresAt - nowMs)).ediv 1000), rfl, ?_, ?_⟩ <;>
    · simp only [ediv_eq_div]
      omega
  · intro hlook
    unfold svcBTTL engineTTL
    simp only [hlook]
  · intro hlook hexp
    unfold svcBTTL engineTTL
    simp only [hlook]
    rw [if_pos hexp]
  · intro hlook hz
    unfold svcBTTL engineTTL
    simp only [hlook]
    rw [if_neg (by simp [isExpiredB, hz])]
    rw [if_pos hz]
    norm_num
  · intro hlook hpos hnexp
    have hgt : enowMs / 1000 < ent2.expiresAt := by
      by_contra hcon
      refine hnexp ⟨hpos, ?_⟩
      simp only [ediv_eq_div]
      omega
    unfold svcBTTL engineTTL
    simp only [hlook]
    rw [if_neg hnexp]
    rw [if_neg (by omega : ¬ ent2.expiresAt = 0)]
    simp only []
    unfold goRoundDur goMod
    set r : Int := ent2.expiresAt * 1000 - enowMs with hr
    have hrpos : 0 < r := by
      rw [hr]
      omega
    rw [if_neg (by omega : ¬ r * 1000000 < 0)]
    rw [kvTmod_eq_emod (by omega) (by norm_num)]
    simp only [emod_eq_mod]
    by_cases hhalf : r * 1000000 % 1000000000 + r * 1000000 % 1000000000 <
        1000000000
    · rw [if_pos hhalf]
      rw [if_neg (by omega : ¬ r * 1000000 - r * 1000000 % 1000000000 < 0)]
      rw [if_neg (by omega : ¬ r * 1000000 - r * 1000000 % 1000000000 < 0)]
      rw [kvTdiv_eq_ediv (by omega) (by norm_num)]
      simp only [ediv_eq_div]
      exact ⟨_, rfl, by omega, by omega⟩
    · rw [if_neg hhalf]
      rw [if_neg (by omega :
        ¬ r * 1000000 + 1000000000 - r * 1000000 % 1000000000 < 0)]
      rw [if_neg (by omega :
        ¬ r * 1000000 + 1000000000 - r * 1000000 % 1000000000 < 0)]
      rw [kvTdiv_eq_ediv (by omega) (by norm_num)]
      simp only [ediv_eq_div]
      exact ⟨_, rfl, by omega, by omega⟩

/-- Witness for ttl_rounding: a live entry expiring at millisecond 3500
queried at 1100 rounds up to 3 seconds in the first service; a live
engine entry expiring at second 2 queried at millisecond 600 (1.4 s
remaining) rounds to the nearest second, 1. -/
theorem ttl_rounding_witness :
    (∃ q, svcTTL ⟨⟨256, 1024, 1000⟩, ⟨[⟨[("t", ⟨[9], 3500⟩)], 2⟩], 0,
        zeroHash⟩, 2, []⟩ "t" 1100 = .ok q ∧
      1000 * (q - 1) < 3500 - 1100 ∧ (3500 : Int) - 1100 ≤ 1000 * q) ∧
    ∃ q, (svcBTTL c5Engine "k" 600).1 = .ok q ∧
      1000 * q - 500 ≤ 2 * 1000 - 600 ∧ (2 : Int) * 1000 - 600 < 1000 * q + 500 := by
  constructor
  · have h := (ttl_rounding ⟨⟨256, 1024, 1000⟩, ⟨[⟨[("t", ⟨[9], 3500⟩)], 2⟩],
      0, zeroHash⟩, 2, []⟩ "t" 1100 ⟨[9], 3500⟩ c5Engine "k" 600 ⟨[5, 6], 2⟩
      (by decide)).2.2.1 (by decide) (by decide) (by decide)
    exact h
  · have h := (ttl_rounding ⟨⟨256, 1024, 1000⟩, ⟨[⟨[("t", ⟨[9], 3500⟩)], 2⟩],
      0, zeroHash⟩, 2, []⟩ "t" 1100 ⟨[9], 3500⟩ c5Engine "k" 600 ⟨[5, 6], 2⟩
      (by decide)).2.2.2.2.2.2 (by decide) (by decide) (by decide)
    exact h

/-- claim C7, counterexample to "rounded up" on the Engine chain: the
entry expires at second 2; at millisecond 600 the remaining 1.4 s rounds
up to 2, but Service.TTL (Engine variant) returns 1. -/
theorem engine_ttl_not_rounded_up_counterexample :
    engineLookup c5Engine "k" = some ⟨[5, 6], 2⟩ ∧
    (svcBTTL c5Engine "k" 600).1 = .ok 1 ∧
    -((-((2 : Int) * 1000 - 600)).ediv 1000) = 2 :=
  ⟨by decide, by rfl, by decide⟩

/-- claim C1: on the corrupted log of scenario S4 both replay paths
truncate the file to byte offset 14 (the end of the last good line), but
parseAOF (persistence.go) returns a nil record slice on the parse error,
so OpenAndReplay restores nothing — k1 from the good prefix is lost until
the next restart — while the sibling AOFPersister.Replay applies the
records before the corruption, recovering k1 = "v1" and dropping k2, as
the specification (and the repository's own TestAOFTruncateOnCorruption)
demand. -/
theorem aof_corruption_replay_divergence :
    parseAOFModel s4content = ([], 14, false) ∧
    openAndReplayB c1Engine0 s4content 0 =
      .ok (c1Engine0, "SET\tk1\tdjE=\t0\n") ∧
    engineLookup c1Engine0 "k1" = none ∧
    (replayA c1CMap0 s4content 0).loaded = 1 ∧
    (replayA c1CMap0 s4content 0).truncatedTo = some 14 ∧
    cmGet (replayA c1CMap0 s4content 0).cm "k1" 0 = some ([118, 49], 0) ∧
    cmGet (replayA c1CMap0 s4content 0).cm "k2" 0 = none ∧
    replayAContent s4content (replayA c1CMap0 s4content 0) =
      "SET\tk1\tdjE=\t0\n" :=
  ⟨by decide, by rfl, by decide, by decide, by decide, by decide, by decide,
    by decide⟩

/-- Witness for newConcurrentMap_shardIdx_safe at the non-power-of-two
shard count 3. -/
theorem newConcurrentMap_shardIdx_safe_witness :
    (newConcurrentMap 3 zeroHash).shards.length = 3 ∧
    (newConcurrentMap 3 zeroHash).shardMask = 2 ∧
    cmShardIdx (newConcurrentMap 3 zeroHash) "a" <
      (newConcurrentMap 3 zeroHash).shards.length :=
  newConcurrentMap_shardIdx_safe 3 (by norm_num) zeroHash "a"

/-! Lemmas toward the snapshot round trip (claim C9). -/

theorem listLookup_of_mem_nodup {α : Type} (l : List (String × α))
    (k : String) (v : α) (hm : (k, v) ∈ l) (hnd : keysNodup l) :
    listLookup l k = some v := by
  induction l with
  | nil => simp at hm
  | cons hd tl ih =>
      obtain ⟨k0, v0⟩ := hd
      simp only [keysNodup, List.map_cons, List.nodup_cons] at hnd
      rcases List.mem_cons.mp hm with heq | htl
      · cases heq
        simp [listLookup]
      · simp only [listLookup]
        rw [if_neg]
        · exact ih htl hnd.2
        · intro hkk
          subst hkk
          exact hnd.1 (List.mem_map.mpr ⟨(k0, v), htl, rfl⟩)

theorem mem_of_listLookup {α : Type} (l : List (String × α)) (k : String)
    (v : α) (h : listLookup l k = some v) : (k, v) ∈ l := by
  induction l with
  | nil => simp [listLookup] at h
  | cons hd tl ih =>
      obtain ⟨k0, v0⟩ := hd
      simp only [listLookup] at h
      by_cases h0 : k0 = k
      · rw [if_pos h0] at h
        cases h
        subst h0
        exact List.mem_cons_self _ _
      · rw [if_neg h0] at h
        exact List.mem_cons_of_mem _ (ih h)

theorem recsLookup_of_mem_nodup (rs : List PersistRecord) (r : PersistRecord)
    (hm : r ∈ rs) (hnd : (rs.map PersistRecord.key).Nodup) :
    recsLookup rs r.key = some r := by
  induction rs with
  | nil => simp at hm
  | cons hd tl ih =>
      simp only [List.map_cons, List.nodup_cons] at hnd
      rcases List.mem_cons.mp hm with heq | htl
      · subst heq
        simp [recsLookup]
      · simp only [recsLookup]
        rw [if_neg]
        · exact ih htl hnd.2
        · intro hkk
          exact hnd.1 (List.mem_map.mpr ⟨r, htl, hkk.symm⟩)

theorem recsLookup_mem (rs : List PersistRecord) (k : String)
    (r : PersistRecord) (h : recsLookup rs k = some r) :
    r ∈ rs ∧ r.key = k := by
  induction rs with
  | nil => simp [recsLookup] at h
  | cons hd tl ih =>
      simp only [recsLookup] at h
      by_cases h0 : hd.key = k
      · rw [if_pos h0] at h
        cases h
        exact ⟨List.mem_cons_self _ _, h0⟩
      · rw [if_neg h0] at h
        obtain ⟨hm, hk⟩ := ih h
        exact ⟨List.mem_cons_of_mem _ hm, hk⟩

theorem recsLookup_eq_none (rs : List PersistRecord) (k : String)
    (h : ∀ r ∈ rs, r.key ≠ k) : recsLookup rs k = none := by
  induction rs with
  | nil => rfl
  | cons hd tl ih =>
      simp only [recsLookup]
      rw [if_neg (h hd (List.mem_cons_self _ _))]
      exact ih (fun r hr => h r (List.mem_cons_of_mem _ hr))

/-- Lookup in an engine whose key shard was overwritten by an insertion
(memory counter and TTL heap immaterial to lookups). -/
theorem engineLookup_after_set (e : Engine) (key k2 : String) (ent : Entry)
    (m : Int) (q : List (String × Int)) (hidx : engineIdxOk e) :
    engineLookup
      { e with
        shards := e.shards.set (engineShardIdx e key)
          (listInsert (engineShardItems e key) key ent)
        memUsage := m
        ttlq := q } k2 =
      (if key = k2 then some ent else engineLookup e k2) := by
  show listLookup
      ((e.shards.set (engineShardIdx e key)
          (listInsert (engineShardItems e key) key ent)).getD
        (engineShardIdx e k2) []) k2 = _
  by_cases hsame : engineShardIdx e k2 = engineShardIdx e key
  · rw [hsame, getD_set_self _ _ _ _ (engineShardIdx_lt e key hidx)]
    rw [listLookup_insert]
    by_cases hk : key = k2
    · rw [if_pos hk, if_pos hk]
    · rw [if_neg hk, if_neg hk]
      unfold engineLookup engineShardItems
      rw [hsame]
  · rw [getD_set_ne _ _ _ _ _ (fun h => hsame h.symm)]
    rw [if_neg (fun h => hsame (by rw [h]))]
    rfl

/-- Successful SetWithExpiresAt on a fresh key within the memory budget:
the exact resulting engine. -/
theorem engineSet_ok (e : Engine) (key : String) (value : Bytes) (ea : Int)
    (hclosed : e.closed = false)
    (hval : engineValidate e key value = none)
    (hfresh : engineLookup e key = none)
    (hmem : e.memUsage + estimateEntrySize key value ≤ e.maxMemory) :
    engineSetWithExpiresAt e key value ea = .ok
      { e with
        shards := e.shards.set (engineShardIdx e key)
          (listInsert (engineShardItems e key) key ⟨value, ea⟩)
        memUsage := e.memUsage + estimateEntrySize key value
        ttlq := if ea > 0 then ttlHeapPush e.ttlq (key, ea) else e.ttlq } := by
  unfold engineSetWithExpiresAt
  unfold engineLookup engineShardItems at hfresh
  simp only [hclosed, if_false, Bool.false_eq_true, hval, hfresh, sub_zero]
  rw [if_neg]
  · rfl
  · intro hcon
    omega

/-- Lookups in the fresh engine always miss. -/
theorem engineFresh_lookup (e : Engine) (key : String) :
    engineLookup (engineFresh e) key = none := by
  unfold engineLookup engineShardItems engineFresh
  show listLookup ((List.replicate e.shards.length []).getD _ []) key = none
  rcases Nat.lt_or_ge (engineShardIdx { e with
      shards := List.replicate e.shards.length []
      memUsage := 0
      ttlq := []
      closed := false } key) (List.replicate e.shards.length
        ([] : List (String × Entry))).length with hlt | hge
  · rw [List.getD_eq_getElem _ _ hlt]
    rw [List.getElem_replicate]
    rfl
  · rw [List.getD_eq_default _ _ (by simpa using hge)]
    rfl

/-- The fresh engine keeps well-formed indices. -/
theorem engineFresh_idxOk (e : Engine) (hidx : engineIdxOk e) :
    engineIdxOk (engineFresh e) := by
  obtain ⟨hcount, hpos, hmask⟩ := hidx
  refine ⟨?_, ?_, ?_⟩ <;>
    simp only [engineFresh, List.length_replicate] <;> assumption

/-- Soundness of Engine.Snapshot: every record comes from a live,
non-expired entry that engineLookup still sees. -/
theorem snapshot_sound (e : Engine) (nowSec : Int) (hwf : engineWF e)
    (r : PersistRecord) (hm : r ∈ engineSnapshot e nowSec) :
    engineLookup e r.key = some ⟨r.value, r.expiresAt⟩ ∧
    ¬(r.expiresAt > 0 ∧ r.expiresAt ≤ nowSec) ∧
    ∃ i : Fin e.shards.length, (r.key, (⟨r.value, r.expiresAt⟩ : Entry)) ∈
      e.shards.get i := by
  obtain ⟨hidx, hshard⟩ := hwf
  unfold engineSnapshot at hm
  rw [List.mem_flatten] at hm
  obtain ⟨block, hblock, hrb⟩ := hm
  rw [List.mem_map] at hblock
  obtain ⟨items, hitems, hfb⟩ := hblock
  subst hfb
  rw [List.mem_filterMap] at hrb
  obtain ⟨p, hp, hsome⟩ := hrb
  by_cases hexp : p.2.expiresAt > 0 ∧ p.2.expiresAt ≤ nowSec
  · rw [if_pos hexp] at hsome
    cases hsome
  · rw [if_neg hexp] at hsome
    have hkey : p.1 = r.key := by cases hsome; rfl
    have hval : p.2.value = r.value := by cases hsome; rfl
    have hea : p.2.expiresAt = r.expiresAt := by cases hsome; rfl
    have hp2 : p.2 = (⟨r.value, r.expiresAt⟩ : Entry) := by
      cases hsome; rfl
    obtain ⟨i, hget⟩ := List.mem_iff_get.mp hitems
    have hpget : (r.key, (⟨r.value, r.expiresAt⟩ : Entry)) ∈ e.shards.get i := by
      rw [hget]
      rw [← hkey, ← hp2]
      exact hp
    have hplace := (hshard i).2 _ hpget
    refine ⟨?_, by rw [← hea]; exact hexp, ⟨i, hpget⟩⟩
    unfold engineLookup engineShardItems
    simp only at hplace
    rw [hplace]
    rw [List.getD_eq_getElem _ _ i.isLt]
    have hgetelem : e.shards[(i : Nat)] = e.shards.get i := rfl
    rw [hgetelem]
    exact listLookup_of_mem_nodup _ _ _ hpget (hshard i).1

/-- Completeness of Engine.Snapshot: every live non-expired entry yields a
record. -/
theorem snapshot_complete (e : Engine) (nowSec : Int) (hidx : engineIdxOk e)
    (key : String) (ent : Entry) (hl : engineLookup e key = some ent)
    (hexp : ¬(ent.expiresAt > 0 ∧ ent.expiresAt ≤ nowSec)) :
    (⟨key, ent.value, ent.expiresAt⟩ : PersistRecord) ∈
      engineSnapshot e nowSec := by
  unfold engineLookup engineShardItems at hl
  have hlt := engineShardIdx_lt e key hidx
  rw [List.getD_eq_getElem _ _ hlt] at hl
  have hp := mem_of_listLookup _ _ _ hl
  unfold engineSnapshot
  rw [List.mem_flatten]
  refine ⟨_, List.mem_map.mpr ⟨e.shards[engineShardIdx e key],
    List.getElem_mem hlt, rfl⟩, ?_⟩
  rw [List.mem_filterMap]
  exact ⟨(key, ent), hp, by rw [if_neg hexp]⟩

/-- The keys of a snapshot block are among the keys of its shard. -/
theorem blockKeys_sublist (items : List (String × Entry)) (nowSec : Int) :
    ((items.filterMap (fun p =>
        if p.2.expiresAt > 0 ∧ p.2.expiresAt ≤ nowSec then none
        else some (⟨p.1, p.2.value, p.2.expiresAt⟩ : PersistRecord))).map
      PersistRecord.key).Sublist (items.map Prod.fst) := by
  induction items with
  | nil => simp
  | cons p rest ih =>
      simp only [List.filterMap_cons]
      by_cases hexp : p.2.expiresAt > 0 ∧ p.2.expiresAt ≤ nowSec
      · rw [if_pos hexp]
        simp only [List.map_cons]
        exact ih.trans (List.sublist_cons_self _ _)
      · rw [if_neg hexp]
        simp only [List.map_cons]
        exact ih.cons₂ p.1

/-- Membership in a snapshot block pins the record key to the shard. -/
theorem blockKey_mem (items : List (String × Entry)) (nowSec : Int)
    (r : PersistRecord)
    (hm : r ∈ items.filterMap (fun p =>
      if p.2.expiresAt > 0 ∧ p.2.expiresAt ≤ nowSec then none
      else some (⟨p.1, p.2.value, p.2.expiresAt⟩ : PersistRecord))) :
    ∃ p ∈ items, p.1 = r.key := by
  rw [List.mem_filterMap] at hm
  obtain ⟨p, hp, hsome⟩ := hm
  by_cases hexp : p.2.expiresAt > 0 ∧ p.2.expiresAt ≤ nowSec
  · rw [if_pos hexp] at hsome
    cases hsome
  · rw [if_neg hexp] at hsome
    exact ⟨p, hp, by cases hsome; rfl⟩

/-- The snapshot's record keys are pairwise distinct. -/
theorem snapshot_keys_nodup (e : Engine) (nowSec : Int) (hwf : engineWF e) :
    ((engineSnapshot e nowSec).map PersistRecord.key).Nodup := by
  obtain ⟨hidx, hshard⟩ := hwf
  unfold engineSnapshot
  rw [List.map_flatten]
  rw [List.nodup_flatten]
  constructor
  · intro lk hlk
    rw [List.mem_map] at hlk
    obtain ⟨block, hblock, hfb⟩ := hlk
    rw [List.mem_map] at hblock
    obtain ⟨items, hitems, hfi⟩ := hblock
    subst hfb
    subst hfi
    obtain ⟨i, hget⟩ := List.mem_iff_get.mp hitems
    have hnd : keysNodup items := by
      rw [← hget]
      exact (hshard i).1
    exact List.Nodup.sublist (blockKeys_sublist items nowSec) hnd
  · rw [List.pairwise_iff_getElem]
    intro i j hi hj hij
    simp only [List.length_map] at hi hj
    intro key hki hkj
    simp only [List.getElem_map, Function.comp] at hki hkj
    rw [List.mem_map] at hki hkj
    obtain ⟨ri, hri, hrik⟩ := hki
    obtain ⟨rj, hrj, hrjk⟩ := hkj
    obtain ⟨pi, hpi, hpik⟩ := blockKey_mem _ nowSec ri hri
    obtain ⟨pj, hpj, hpjk⟩ := blockKey_mem _ nowSec rj hrj
    have hplacei : engineShardIdx e pi.1 = i := by
      simpa using (hshard ⟨i, hi⟩).2 pi (by
        show pi ∈ e.shards.get ⟨i, hi⟩
        exact hpi)
    have hplacej : engineShardIdx e pj.1 = j := by
      simpa using (hshard ⟨j, hj⟩).2 pj (by
        show pj ∈ e.shards.get ⟨j, hj⟩
        exact hpj)
    have hki2 : engineShardIdx e key = i := by
      rw [← hrik, ← hpik]
      exact hplacei
    have hkj2 : engineShardIdx e key = j := by
      rw [← hrjk, ← hpjk]
      exact hplacej
    omega

/-- A snapshot block accounts for at most its shard's estimated bytes. -/
theorem blockEstSum_le (items : List (String × Entry)) (nowSec : Int) :
    ((items.filterMap (fun p =>
        if p.2.expiresAt > 0 ∧ p.2.expiresAt ≤ nowSec then none
        else some (⟨p.1, p.2.value, p.2.expiresAt⟩ : PersistRecord))).map
      (fun r => estimateEntrySize r.key r.value)).sum ≤
    (items.map (fun p => estimateEntrySize p.1 p.2.value)).sum := by
  induction items with
  | nil => simp
  | cons p rest ih =>
      by_cases hexp : p.2.expiresAt > 0 ∧ p.2.expiresAt ≤ nowSec
      · simp only [List.filterMap_cons, if_pos hexp, List.map_cons,
          List.sum_cons]
        have hpos := estimateEntrySize_pos p.1 p.2.value
        omega
      · simp only [List.filterMap_cons, if_neg hexp, List.map_cons,
          List.sum_cons]
        omega

/-- The snapshot accounts for at most the engine's total estimated bytes. -/
theorem snapshotEstSum_le (e : Engine) (nowSec : Int) :
    ((engineSnapshot e nowSec).map
      (fun r => estimateEntrySize r.key r.value)).sum ≤ entriesEstSum e := by
  unfold engineSnapshot entriesEstSum
  rw [List.map_flatten, List.sum_flatten]
  simp only [List.map_map]
  apply List.sum_le_sum
  intro items hitems
  simp only [Function.comp]
  exact blockEstSum_le items nowSec

/-- Restoring a list of fresh-keyed, valid, unexpired records into an
engine within its memory budget succeeds and produces exactly the
association of the records on top of the engine's previous contents. -/
theorem engineRestore_fresh (rs : List PersistRecord) (f : Engine)
    (nowSec : Int) (hidx : engineIdxOk f) (hclosed : f.closed = false)
    (hval : ∀ r ∈ rs, engineValidate f r.key r.value = none)
    (hnexp : ∀ r ∈ rs, ¬(r.expiresAt > 0 ∧ r.expiresAt ≤ nowSec))
    (hfresh : ∀ r ∈ rs, engineLookup f r.key = none)
    (hnd : (rs.map PersistRecord.key).Nodup)
    (hmem : f.memUsage +
      ((rs.map (fun r => estimateEntrySize r.key r.value)).sum) ≤
        f.maxMemory) :
    ∃ e2, engineRestore f rs nowSec = .ok e2 ∧
      ∀ key, engineLookup e2 key =
        (match recsLookup rs key with
         | some r => some ⟨r.value, r.expiresAt⟩
         | none => engineLookup f key) := by
  induction rs generalizing f with
  | nil => exact ⟨f, rfl, fun key => rfl⟩
  | cons r rest ih =>
      have hmemr : f.memUsage + estimateEntrySize r.key r.value ≤
          f.maxMemory := by
        have hrest : 0 ≤ ((rest.map
            (fun r => estimateEntrySize r.key r.value)).sum) := by
          apply List.sum_nonneg
          intro x hx
          rw [List.mem_map] at hx
          obtain ⟨rr, _, hrr⟩ := hx
          rw [← hrr]
          exact le_of_lt (estimateEntrySize_pos _ _)
        simp only [List.map_cons, List.sum_cons] at hmem
        omega
      have hset := engineSet_ok f r.key r.value r.expiresAt hclosed
        (hval r (List.mem_cons_self _ _)) (hfresh r (List.mem_cons_self _ _))
        hmemr
      unfold engineRestore
      rw [if_neg (hnexp r (List.mem_cons_self _ _))]
      rw [hset]
      simp only [List.map_cons, List.nodup_cons] at hnd
      set f2 : Engine :=
        { f with
          shards := f.shards.set (engineShardIdx f r.key)
            (listInsert (engineShardItems f r.key) r.key
              ⟨r.value, r.expiresAt⟩)
          memUsage := f.memUsage + estimateEntrySize r.key r.value
          ttlq := if r.expiresAt > 0 then ttlHeapPush f.ttlq (r.key, r.expiresAt)
                  else f.ttlq } with hf2
      have hlook2 : ∀ k2, engineLookup f2 k2 =
          (if r.key = k2 then some (⟨r.value, r.expiresAt⟩ : Entry)
           else engineLookup f k2) := by
        intro k2
        rw [hf2]
        exact engineLookup_after_set f r.key k2 ⟨r.value, r.expiresAt⟩ _ _ hidx
      have hidx2 : engineIdxOk f2 := by
        obtain ⟨hc, hp, hm⟩ := hidx
        refine ⟨?_, ?_, ?_⟩ <;>
          simp only [hf2, List.length_set] <;> assumption
      have hclosed2 : f2.closed = false := hclosed
      have hval2 : ∀ rr ∈ rest, engineValidate f2 rr.key rr.value = none :=
        fun rr hrr => hval rr (List.mem_cons_of_mem _ hrr)
      have hnexp2 : ∀ rr ∈ rest, ¬(rr.expiresAt > 0 ∧ rr.expiresAt ≤ nowSec) :=
        fun rr hrr => hnexp rr (List.mem_cons_of_mem _ hrr)
      have hfresh2 : ∀ rr ∈ rest, engineLookup f2 rr.key = none := by
        intro rr hrr
        rw [hlook2 rr.key]
        rw [if_neg]
        · exact hfresh rr (List.mem_cons_of_mem _ hrr)
        · intro hkk
          exact hnd.1 (List.mem_map.mpr ⟨rr, hrr, hkk.symm⟩)
      have hmem2 : f2.memUsage +
          ((rest.map (fun r => estimateEntrySize r.key r.value)).sum) ≤
            f2.maxMemory := by
        show f.memUsage + estimateEntrySize r.key r.value + _ ≤ f.maxMemory
        simp only [List.map_cons, List.sum_cons] at hmem
        omega
      obtain ⟨e2, hok, hlook⟩ := ih f2 hidx2 hclosed2 hval2 hnexp2 hfresh2
        hnd.2 hmem2
      refine ⟨e2, hok, ?_⟩
      intro key
      rw [hlook key]
      show _ = (match (if r.key = key then some r else recsLookup rest key) with
         | some rr => some (⟨rr.value, rr.expiresAt⟩ : Entry)
         | none => engineLookup f key)
      by_cases hk : r.key = key
      · rw [if_pos hk]
        have hnone : recsLookup rest key = none := by
          apply recsLookup_eq_none
          intro rr hrr hkk
          exact hnd.1 (List.mem_map.mpr ⟨rr, hrr, by rw [hkk, ← hk]⟩)
        rw [hnone]
        rw [hlook2 key]
        rw [if_pos hk]
      · rw [if_neg hk]
        rcases hrl : recsLookup rest key with _ | rr
        · rw [hlook2 key]
          rw [if_neg hk]
        · rfl

/-- claim C9: Engine.Snapshot followed by Engine.Restore into an empty
store with the same configuration reproduces exactly the pre-snapshot
state restricted to the non-expired entries — entries already past their
expiration are dropped at save time (and would be skipped again at load
time), everything else round-trips with identical key, value and
expires_at.  The RDB file layer (gob encode to a temp file, fsync,
rename; decode on load) transports the record list unchanged and is
modelled as the identity on records. -/
theorem snapshot_restore_roundtrip (e : Engine) (nowSec : Int)
    (hwf : engineWF e)
    (hvalid : ∀ i : Fin e.shards.length, ∀ p ∈ e.shards.get i,
      engineValidate e p.1 p.2.value = none)
    (hmem : entriesEstSum e ≤ e.maxMemory) :
    ∃ e2, engineRestore (engineFresh e) (engineSnapshot e nowSec) nowSec =
        .ok e2 ∧
      ∀ key, engineLookup e2 key =
        (match engineLookup e key with
         | some ent =>
             if ent.expiresAt > 0 ∧ ent.expiresAt ≤ nowSec then none
             else some ent
         | none => none) := by
  have hnd := snapshot_keys_nodup e nowSec hwf
  have hval : ∀ r ∈ engineSnapshot e nowSec,
      engineValidate (engineFresh e) r.key r.value = none := by
    intro r hr
    obtain ⟨_, _, ⟨i, hpmem⟩⟩ := snapshot_sound e nowSec hwf r hr
    exact hvalid i _ hpmem
  have hnexp : ∀ r ∈ engineSnapshot e nowSec,
      ¬(r.expiresAt > 0 ∧ r.expiresAt ≤ nowSec) := by
    intro r hr
    exact (snapshot_sound e nowSec hwf r hr).2.1
  have hfresh : ∀ r ∈ engineSnapshot e nowSec,
      engineLookup (engineFresh e) r.key = none :=
    fun r _ => engineFresh_lookup e r.key
  have hmem2 : (engineFresh e).memUsage +
      (((engineSnapshot e nowSec).map
        (fun r => estimateEntrySize r.key r.value)).sum) ≤
        (engineFresh e).maxMemory := by
    show (0 : Int) + _ ≤ e.maxMemory
    have := snapshotEstSum_le e nowSec
    omega
  obtain ⟨e2, hok, hlook⟩ := engineRestore_fresh (engineSnapshot e nowSec)
    (engineFresh e) nowSec (engineFresh_idxOk e hwf.1) rfl hval hnexp hfresh
    hnd hmem2
  refine ⟨e2, hok, ?_⟩
  intro key
  rw [hlook key]
  rcases hle : engineLookup e key with _ | ent
  · have hnone : recsLookup (engineSnapshot e nowSec) key = none := by
      apply recsLookup_eq_none
      intro r hr hkk
      obtain ⟨hl, _, _⟩ := snapshot_sound e nowSec hwf r hr
      rw [hkk, hle] at hl
      cases hl
    simp only [hnone, hle]
    exact engineFresh_lookup e key
  · by_cases hexp : ent.expiresAt > 0 ∧ ent.expiresAt ≤ nowSec
    · have hnone : recsLookup (engineSnapshot e nowSec) key = none := by
        apply recsLookup_eq_none
        intro r hr hkk
        obtain ⟨hl, hne, _⟩ := snapshot_sound e nowSec hwf r hr
        rw [hkk, hle] at hl
        cases hl
        exact hne hexp
      simp only [hnone, hle, if_pos hexp]
      exact engineFresh_lookup e key
    · have hmemr := snapshot_complete e nowSec hwf.1 key ent hle hexp
      have hsome : recsLookup (engineSnapshot e nowSec) key =
          some ⟨key, ent.value, ent.expiresAt⟩ :=
        recsLookup_of_mem_nodup _ _ hmemr hnd
      simp only [hsome, hle, if_neg hexp]

/-- Witness for snapshot_restore_roundtrip: the two-entry engine at
second 10, where b (expired at 5) is dropped and a survives unchanged. -/
theorem snapshot_restore_roundtrip_witness :
    ∃ e2, engineRestore (engineFresh c9Engine) (engineSnapshot c9Engine 10)
        10 = .ok e2 ∧
      engineLookup e2 "a" = some ⟨[1], 0⟩ ∧ engineLookup e2 "b" = none := by
  obtain ⟨e2, hok, hlook⟩ := snapshot_restore_roundtrip c9Engine 10
    ⟨by unfold engineIdxOk; decide, by decide⟩ (by decide) (by decide)
  refine ⟨e2, hok, ?_, ?_⟩
  · rw [hlook "a"]
    decide
  · rw [hlook "b"]
    decide

end GopherKV
